import Mathlib

/-!
# StanfordRBT: a size-augmented red/black tree (insert, contains, rankOf, select,
teardown)

Embedding of `src/working/close.cpp` (class `RedBlackTree`, declared in
`src/RedBlackTree.h`).

## Representation

* A `Node*` that owns a subtree is a `Tree`: `Tree.nil` is `nullptr`, and
  `Tree.node key color left right size` is a node with the fields that
  `close.cpp` reads and writes (`key`, `color`, `left`, `right`, `size`).
  The header declares `numTotal`, `numLeft`, `numRight` where `close.cpp`
  uses `size`; the embedding follows `close.cpp`.
* The `parent` back-reference is the chain of `Frame`s above a node, nearest
  parent first.  A `Frame` is a parent node seen from one of its children: it
  records which child we came from (`side`), the parent's own `key`, `color`
  and `size`, and the parent's other child (`sibling`).  A pointer to a node
  inside the tree is thus the pair (subtree at the node, chain of frames);
  `node->parent == nullptr` is the empty chain, and the whole tree is
  recovered with `zip`.
* `int` keys are `Int` (keys are only compared), `size_t` counters are `Nat`
  (they are only incremented, added and, in `selectHelper`, subtracted under a
  guard that excludes underflow).  `insertKeyLoop`, `rotateWithParent`,
  `fixupFrom` and `insert` compute the counters without a bound, which is what
  the code computes as long as no counter passes `SIZE_MAX`; `insertKeyLoop64`,
  `rotateWithParent64`, `fixupFrom64` and `insert64` are the same functions
  with the arithmetic of a 64-bit `size_t`, for the statement that is made
  about counters of any value.
* A C++ `throw` and a member access through `nullptr` are results
  `Except.error` of type `Fault`.
-/

namespace RedBlackTree

/-- The type `enum class Color { BLACK, RED }`. -/
inductive Color where
  | BLACK
  | RED
deriving DecidableEq, Repr

/-- Modelled from the spec: the field `size` of `struct Node` ("count of nodes in
the subtree rooted at this node, including itself"), which `close.cpp` reads
and writes throughout but the `struct Node` of `RedBlackTree.h` does not
declare (it declares `numTotal`, `numLeft` and `numRight`, which `close.cpp`
never mentions).  The other fields are those of `struct Node`: `key`, `color`,
`left`, `right`; `parent` is the chain of `Frame`s.  `nil` is `nullptr`. -/
inductive Tree where
  | nil : Tree
  | node (key : Int) (color : Color) (left right : Tree) (size : Nat) : Tree
deriving DecidableEq, Repr

/-- Which child of its parent a node is. -/
inductive Side where
  | L
  | R
deriving DecidableEq, Repr

/-- A parent node seen from its child on side `side`. -/
structure Frame where
  side : Side
  key : Int
  color : Color
  size : Nat
  sibling : Tree
deriving DecidableEq, Repr

/-- What a call can do instead of returning. -/
inductive Fault where
  | nullDereference
  | runtimeError (what : String)
deriving DecidableEq, Repr

/-- The data members of `class RedBlackTree`: `size_t size = 0` and
`Node* root = nullptr`. -/
structure RBT where
  size : Nat
  root : Tree
deriving DecidableEq, Repr

/-- The default-constructed tree. -/
def RBT.empty : RBT := RBT.mk 0 Tree.nil

namespace Tree

/-- The expression `p != nullptr`. -/
def isNode : Tree → Bool
  | nil => false
  | node _ _ _ _ _ => true

/-- The expression `p ? p->size : 0`. -/
def sizeOr0 : Tree → Nat
  | nil => 0
  | node _ _ _ _ s => s

/-- The expression `p == nullptr || p->color == Color::BLACK`. -/
def nullOrBlack : Tree → Bool
  | nil => true
  | node _ c _ _ _ => c == Color.BLACK

/-- The expression `p != nullptr && p->color == Color::RED`. -/
def nonNullRed : Tree → Bool
  | nil => false
  | node _ c _ _ _ => c == Color.RED

/-- The assignment `p->color = c`; through `nullptr` it is a fault. -/
def setColor (c : Color) : Tree → Except Fault Tree
  | nil => .error Fault.nullDereference
  | node k _ l r s => .ok (node k c l r s)

/-- The assignment `p->left->color = c` or `p->right->color = c`, used where
`close.cpp` recolours a node that a rotation has just made a child of `p`. -/
def setChildColor (sd : Side) (c : Color) : Tree → Except Fault Tree
  | nil => .error Fault.nullDereference
  | node k c0 l r s =>
    match sd with
    | Side.L => (setColor c l).map (fun l1 => node k c0 l1 r s)
    | Side.R => (setColor c r).map (fun r1 => node k c0 l r1 s)

end Tree

open Tree

/-- The parent node of frame `f` with `t` as its child on side `f.side`. -/
def Frame.plug (f : Frame) (t : Tree) : Tree :=
  match f.side with
  | Side.L => node f.key f.color t f.sibling f.size
  | Side.R => node f.key f.color f.sibling t f.size

/-- The whole tree: the subtree `t` below the chain of parents `path`. -/
def zip : List Frame → Tree → Tree
  | [], t => t
  | f :: rest, t => zip rest (f.plug t)

/-- The other side. -/
def Side.other : Side → Side
  | Side.L => Side.R
  | Side.R => Side.L

/-- Function `RedBlackTree::contains`, lines 38-46. -/
def containsLoop (key : Int) : Tree → Bool
  | nil => false
  | node k _ l r _ =>
    if key = k then true
    else if key < k then containsLoop key l
    else containsLoop key r

/-- Function `RedBlackTree::contains`. -/
def contains (t : RBT) (key : Int) : Bool := containsLoop key t.root

/-- What `insertKey` leaves behind: either the tree (when it returned
`nullptr`), or the new node with its chain of parents. -/
inductive Inserted where
  | present (root : Tree)
  | fresh (node : Tree) (path : List Frame)
deriving DecidableEq, Repr

/-- The loop and steps two and three of `RedBlackTree::insertKey`, lines 72-99.
`curr` is the loop variable, `path` the chain of parents of `curr` (`prev` is
its head).  Every node passed on the way down has had `prev->size++` applied,
which is why the frames pushed carry `s + 1`; the `return nullptr` of line 75
comes before the increment of the node holding `key`, but after those of its
ancestors. -/
def insertKeyLoop (key : Int) : Tree → List Frame → Inserted
  | nil, path => Inserted.fresh (node key Color.BLACK nil nil 1) path
  | node k c l r s, path =>
    if key = k then Inserted.present (zip path (node k c l r s))
    else if key < k then insertKeyLoop key l (Frame.mk Side.L k c (s + 1) r :: path)
    else insertKeyLoop key r (Frame.mk Side.R k c (s + 1) l :: path)

/-- Function `RedBlackTree::insertKey`. -/
def insertKey (root : Tree) (key : Int) : Inserted := insertKeyLoop key root []

/-- Function `RedBlackTree::rotateWithParent`, lines 265-326, for the node `t` below the
chain `path`.  Returns the rotated node (now holding its old parent as a child)
and its new chain of parents.  In the right rotation the second size update
reads `node->right->size`, and `node->right` is by then the old parent, whose
size is still the old one (`p.size`). -/
def rotateWithParent : Tree → List Frame → Except Fault (Tree × List Frame)
  | nil, _ => .error Fault.nullDereference
  | node _ _ _ _ _, [] => .error (Fault.runtimeError "Rotating node with no parent?")
  | node k c l r _, p :: rest =>
    match p.side with
    | Side.L =>
      let child := r
      let parentSize := (if p.sibling.isNode then p.size else 0) + (if child.isNode then child.sizeOr0 else 0) + 1
      .ok (node k c l (node p.key p.color child p.sibling parentSize) p.size, rest)
    | Side.R =>
      let child := l
      let parentSize := (if p.sibling.isNode then p.sibling.sizeOr0 else 0) + (if child.isNode then child.sizeOr0 else 0) + 1
      .ok (node k c (node p.key p.color p.sibling child parentSize) r p.size, rest)

/-- Function `RedBlackTree::fixupFrom`, lines 103-260, for the node `t` below the chain
`path`; returns the root of the tree when the loop ends.

* `parent` is the head `p` of the chain, `sibling = p.sibling`,
  `grandparent` the next frame `g`, `aunt = g.sibling` (or `nullptr` when
  there is no grandparent, as `siblingOf` returns).
* `node == parent->left` is `p.side = L`, `parent == grandparent->left` is
  `g.side = L`.
* zig-zag: after the two rotations the grandparent is the child of `node` on
  the side opposite to `g.side`.
* zig-zig: after the rotation `parent` holds `node` on side `p.side` and the
  grandparent on the other side. -/
def fixupFrom : Tree → List Frame → Except Fault Tree
  | nil, _ => .error Fault.nullDereference
  | node k c l r s, [] => .ok (node k c l r s)
  | node k _ l r s, [p] =>
    if p.color == Color.BLACK && p.sibling.nullOrBlack then
      .ok (zip [p] (node k Color.RED l r s))
    else if p.color == Color.BLACK && p.sibling.nonNullRed then
      .ok (zip [p] (node k Color.RED l r s))
    else
      -- parent is RED and has no parent: `aunt == nullptr`, and line 195
      -- reads `grandparent->left`
      .error Fault.nullDereference
  | node k c l r s, p :: g :: rest =>
    if p.color == Color.BLACK && p.sibling.nullOrBlack then
      .ok (zip (p :: g :: rest) (node k Color.RED l r s))
    else if p.color == Color.BLACK && p.sibling.nonNullRed then
      .ok (zip (p :: g :: rest) (node k Color.RED l r s))
    else if p.color == Color.RED && g.sibling.nullOrBlack then
      if (p.side == Side.L) != (g.side == Side.L) then
        do
          let (n1, path1) ← rotateWithParent (node k c l r s) (p :: g :: rest)
          let (n2, path2) ← rotateWithParent n1 path1
          let n3 ← n2.setChildColor g.side.other Color.RED
          .ok (zip path2 n3)
      else
        do
          let (p1, path1) ← rotateWithParent (p.plug (node k c l r s)) (g :: rest)
          let p2 ← p1.setColor Color.BLACK
          let p3 ← p2.setChildColor p.side Color.RED
          let p4 ← p3.setChildColor p.side.other Color.RED
          .ok (zip path1 p4)
    else
      do
        let aunt ← g.sibling.setColor Color.BLACK
        let parent := Frame.mk p.side p.key Color.BLACK p.size p.sibling
        let grandparent := Frame.mk g.side g.key g.color g.size aunt
        fixupFrom (grandparent.plug (parent.plug (node k Color.RED l r s))) rest

/-- Function `RedBlackTree::insert`, lines 51-61: the returned flag and the tree after
the call. -/
def insert (t : RBT) (key : Int) : Except Fault (Bool × RBT) :=
  match insertKey t.root key with
  | Inserted.present root1 => .ok (false, RBT.mk t.size root1)
  | Inserted.fresh n path => (fixupFrom n path).map (fun root1 => (true, RBT.mk t.size root1))

/-- Function `RedBlackTree::rankOfHelper`, lines 344-359. -/
def rankOfHelper : Tree → Int → Nat
  | nil, _ => 0
  | node k _ l r _, key =>
    if key < k then rankOfHelper l key
    else if key > k then 1 + l.sizeOr0 + rankOfHelper r key
    else l.sizeOr0

/-- Function `RedBlackTree::rankOf`. -/
def rankOf (t : RBT) (key : Int) : Nat := rankOfHelper t.root key

/-- Function `RedBlackTree::selectHelper`, lines 367-385.  The function has no `throw`:
at `nullptr` it returns 0. -/
def selectHelper : Tree → Nat → Except Fault Int
  | nil, _ => .ok 0
  | node k _ l r _, rank =>
    let leftcount := match l with
      | nil => 0
      | node _ _ _ _ ls => ls
    if rank < leftcount then selectHelper l rank
    else if rank = leftcount then .ok k
    else selectHelper r (rank - leftcount - 1)

/-- Function `RedBlackTree::select`. -/
def select (t : RBT) (rank : Nat) : Except Fault Int := selectHelper t.root rank

/-- A sequence of `insert` calls, in order; the tree after the last one. -/
def insertAll : RBT → List Int → Except Fault RBT
  | t, [] => .ok t
  | t, k :: ks =>
    match insert t k with
    | .error e => .error e
    | .ok (_, t1) => insertAll t1 ks

/-- The tree after inserting `keys` in order into an empty tree. -/
def build (keys : List Int) : Except Fault RBT := insertAll RBT.empty keys

/-! ## Specification vocabulary -/

/-- The keys of a tree, in order (left subtree, node, right subtree). -/
def Tree.keys : Tree → List Int
  | nil => []
  | node k _ l r _ => keys l ++ k :: keys r

/-- The keys that the chain of parents puts before the subtree it leads to. -/
def pathBefore : List Frame → List Int
  | [] => []
  | f :: rest =>
    match f.side with
    | Side.L => pathBefore rest
    | Side.R => pathBefore rest ++ (f.sibling.keys ++ [f.key])

/-- The keys that the chain of parents puts after the subtree it leads to. -/
def pathAfter : List Frame → List Int
  | [] => []
  | f :: rest =>
    match f.side with
    | Side.L => (f.key :: f.sibling.keys) ++ pathAfter rest
    | Side.R => pathAfter rest

/-- The colour of the node `p` points to, an absent node counting BLACK. -/
def Tree.rootColor : Tree → Color
  | nil => Color.BLACK
  | node _ c _ _ _ => c

/-- No RED node has a RED child. -/
def Tree.NoRedRed : Tree → Prop
  | nil => True
  | node _ c l r _ =>
    (c = Color.RED → l.rootColor = Color.BLACK ∧ r.rootColor = Color.BLACK) ∧ NoRedRed l ∧ NoRedRed r

/-- The chain of parents has no RED node with a RED child and a BLACK root,
once a subtree whose root has colour `c` hangs below it. -/
def PathOK : Color → List Frame → Prop
  | c, [] => c = Color.BLACK
  | c, f :: rest =>
    f.sibling.NoRedRed ∧ (f.color = Color.RED → c = Color.BLACK ∧ f.sibling.rootColor = Color.BLACK) ∧
      PathOK f.color rest

/-- What holds of the node that an iteration of the loop of `fixupFrom` starts
from: it is BLACK (the placeholder colour, or a grandparent whose children
were both RED), its children are BLACK, and the rest of the tree was in order
with a BLACK node or an empty subtree at its place. -/
def FixupReady : Tree → List Frame → Prop
  | nil, _ => False
  | node _ c l r _, path =>
    c = Color.BLACK ∧ l.rootColor = Color.BLACK ∧ r.rootColor = Color.BLACK ∧
      l.NoRedRed ∧ r.NoRedRed ∧ PathOK Color.BLACK path

/-- What `fixupFrom` owes: it returns, the root it returns is BLACK, no RED node
has a RED child, and the keys are those it was given, in the same order. -/
def FixupGood (n : Tree) (path : List Frame) : Prop :=
  ∃ t, fixupFrom n path = .ok t ∧ t.rootColor = Color.BLACK ∧ t.NoRedRed ∧
    t.keys = (zip path n).keys

/-- The number of distinct keys of the call sequence `ks` that are strictly less
than `k`: what the spec says `rankOf(k)` is. -/
def countLess (ks : List Int) (k : Int) : Nat :=
  ((ks.dedup).filter (fun x => decide (x < k))).length

/-- The distinct keys of the call sequence `ks` in ascending order: the sorted
reference sequence that the spec compares `select` with. -/
def distinctSorted (ks : List Int) : List Int :=
  (ks.dedup).insertionSort (fun a b => a ≤ b)

/-- The size invariant of the spec, checked at every node:
`size(n) = 1 + size(n.left) + size(n.right)`, an absent child counting 0. -/
def Tree.sizeInvariant : Tree → Bool
  | nil => true
  | node _ _ l r s => (s == 1 + l.sizeOr0 + r.sizeOr0) && sizeInvariant l && sizeInvariant r

/-- BST ordering, stated on the in-order key sequence: strictly increasing. -/
def Tree.Ordered (t : Tree) : Prop := t.keys.Sorted (fun a b => a < b)

/-- The colour part of the red/black invariants together with BST ordering. -/
structure WellFormed (t : Tree) : Prop where
  rootBlack : t.rootColor = Color.BLACK
  noRedRed : t.NoRedRed
  ordered : t.Ordered

/-- Function `RedBlackTree::getSize`, `RedBlackTree.h` lines 39-41:
`return this->size;`. -/
def getSize (t : RBT) : Nat := t.size

/-- BST ordering as the spec words it: for every node, all keys in `left` are
strictly less than its key and all keys in `right` are strictly greater. -/
def Tree.BST : Tree → Prop
  | nil => True
  | node k _ l r _ => (∀ x ∈ l.keys, x < k) ∧ (∀ x ∈ r.keys, k < x) ∧ BST l ∧ BST r

/-- Whether the descent of `selectHelper` ends in its first branch,
`root == nullptr` (line 368); the tests are those of `selectHelper`. -/
def selectHelperAtNull : Tree → Nat → Bool
  | nil, _ => true
  | node _ _ l r _, rank =>
    let leftcount := match l with
      | nil => 0
      | node _ _ _ _ ls => ls
    if rank < leftcount then selectHelperAtNull l rank
    else if rank = leftcount then false
    else selectHelperAtNull r (rank - leftcount - 1)

/-- A three-node tree, 1 and 5 below 2, with the size counters right; used to
instantiate the statements about well-formed trees. -/
def sampleTree : Tree :=
  node 2 Color.BLACK (node 1 Color.RED nil nil 1) (node 5 Color.RED nil nil 1) 3

/-- The fields of a node that do not point to other nodes: what identifies a
node once it has been detached. -/
structure NodeData where
  key : Int
  color : Color
  size : Nat
deriving DecidableEq, Repr

/-- The nodes of a tree, in order (left subtree, node, right subtree). -/
def Tree.nodes : Tree → List NodeData
  | nil => []
  | node k c l r s => nodes l ++ NodeData.mk k c s :: nodes r

/-- One iteration of the loop of `RedBlackTree::~RedBlackTree`, lines 17-34, on
a non-empty `root`: the new `root`, and the node deleted if one was.  Case 1
deletes `root` and goes on with its right child; case 2 makes the left child
the root, with the old root as its right child and its old right subtree as
the left subtree of the old root.  Colours and sizes are not touched. -/
def destructorStep : Tree → Tree × Option NodeData
  | nil => (nil, none)
  | node k c nil r s => (r, some (NodeData.mk k c s))
  | node k c (node lk lc ll lr ls) r s => (node lk lc ll (node k c lr r s) ls, none)

/-- The loop `while (root != nullptr)` of the destructor, run for at most `fuel`
iterations: `none` if the loop has not ended by then, else the final `root`
and the nodes deleted, in the order of deletion after those of `deleted`. -/
def destructorLoop : Nat → Tree → List NodeData → Option (Tree × List NodeData)
  | _, nil, deleted => some (nil, deleted)
  | 0, node _ _ _ _ _, _ => none
  | fuel + 1, node k c l r s, deleted =>
    match destructorStep (node k c l r s) with
    | (root1, some d) => destructorLoop fuel root1 (deleted ++ [d])
    | (root1, none) => destructorLoop fuel root1 deleted

/-- The number of nodes that are not on the right spine of the tree: each
rotation of the destructor takes one of them onto the spine. -/
def Tree.offSpine : Tree → Nat
  | nil => 0
  | node _ _ l r _ => l.nodes.length + offSpine r

/-- What a node adds to the number of BLACK nodes of a path through it. -/
def Color.blackCount : Color → Nat
  | Color.BLACK => 1
  | Color.RED => 0

/-- The number of BLACK nodes on each path from the node down to an
empty-subtree position, one entry per such position, left to right. -/
def Tree.blackCounts : Tree → List Nat
  | nil => [0]
  | node _ c l r _ => (blackCounts l ++ blackCounts r).map (fun n => n + c.blackCount)

/-- Every path from the node down to an empty-subtree position has `n` BLACK
nodes. -/
def Tree.BlackHeight : Tree → Nat → Prop
  | nil, n => n = 0
  | node _ c l r _, n => ∃ m, n = m + c.blackCount ∧ BlackHeight l m ∧ BlackHeight r m

/-- The chain of parents is balanced around a subtree of black height `h`: each
parent's other child has the black height that the subtree has at that level. -/
def PathBalanced : Nat → List Frame → Prop
  | _, [] => True
  | h, f :: rest => f.sibling.BlackHeight h ∧ PathBalanced (h + f.color.blackCount) rest

/-- The black heights around the node that an iteration of the loop of
`fixupFrom` starts from: both children have black height `h`, which is what
the place of the node had before the insertion. -/
def FixupLevel : Tree → Nat → List Frame → Prop
  | nil, _, _ => False
  | node _ _ l r _, h, path => l.BlackHeight h ∧ r.BlackHeight h ∧ PathBalanced h path

/-- The number of nodes on the longest path from the node down to a leaf. -/
def Tree.height : Tree → Nat
  | nil => 0
  | node _ _ l r _ => 1 + max (height l) (height r)

/-- The tree that the spec describes for the raw insertion of a key that is not
present: a new childless BLACK node of size 1 at the empty place that the
descent reaches, one more in the size of every node that the descent passed,
and every other node as it was. -/
def rawInsert (key : Int) : Tree → Tree
  | nil => node key Color.BLACK nil nil 1
  | node k c l r s =>
    if key < k then node k c (rawInsert key l) r (s + 1)
    else node k c l (rawInsert key r) (s + 1)

/-- The tree with one more in the size of every node on the way from the root
down to the node holding `key`, that node excluded (its proper ancestors), and
every other node as it was. -/
def bumpAncestors (key : Int) : Tree → Tree
  | nil => nil
  | node k c l r s =>
    if key = k then node k c l r s
    else if key < k then node k c (bumpAncestors key l) r (s + 1)
    else node k c l (bumpAncestors key r) (s + 1)

/-- The shape of a tree with the key and the colour of every node: the tree
with all size counters put to 0. -/
def Tree.skeleton : Tree → Tree
  | nil => nil
  | node k c l r _ => node k c (skeleton l) (skeleton r) 0

/-- The number of nodes in the left subtree of the root. -/
def Tree.leftCount : Tree → Nat
  | nil => 0
  | node _ _ l _ _ => l.nodes.length

/-- The number of nodes in the right subtree of the root. -/
def Tree.rightCount : Tree → Nat
  | nil => 0
  | node _ _ _ r _ => r.nodes.length

/-- The descent and steps two and three of `insertKey` as they would be if line
84 gave the new node the colour `placeholder` instead of `Color::BLACK`;
everything else is `insertKeyLoop`. -/
def insertKeyLoopWith (placeholder : Color) (key : Int) : Tree → List Frame → Inserted
  | nil, path => Inserted.fresh (node key placeholder nil nil 1) path
  | node k c l r s, path =>
    if key = k then Inserted.present (zip path (node k c l r s))
    else if key < k then
      insertKeyLoopWith placeholder key l (Frame.mk Side.L k c (s + 1) r :: path)
    else insertKeyLoopWith placeholder key r (Frame.mk Side.R k c (s + 1) l :: path)

/-- The function `insert` over the variant of `insertKey` with another
placeholder colour; `fixupFrom` is the one of `close.cpp`. -/
def insertWith (placeholder : Color) (t : RBT) (key : Int) : Except Fault (Bool × RBT) :=
  match insertKeyLoopWith placeholder key t.root [] with
  | Inserted.present root1 => .ok (false, RBT.mk t.size root1)
  | Inserted.fresh n path => (fixupFrom n path).map (fun root1 => (true, RBT.mk t.size root1))

/-- A sequence of calls of the variant `insertWith`, in order. -/
def insertAllWith (placeholder : Color) : RBT → List Int → Except Fault RBT
  | t, [] => .ok t
  | t, k :: ks =>
    match insertWith placeholder t k with
    | .error e => .error e
    | .ok (_, t1) => insertAllWith placeholder t1 ks

/-- The condition under which `fixupFrom` takes its zig-zag branch (lines 181
and 195) for a node whose parent is `p` and whose further ancestors are `rest`:
the parent is RED, the aunt absent or BLACK, and the node hangs on the other
side of its parent than the parent of the grandparent. -/
def zigZagCase (p : Frame) : List Frame → Bool
  | [] => false
  | g :: _ =>
    p.color == Color.RED && g.sibling.nullOrBlack && ((p.side == Side.L) != (g.side == Side.L))

/-- The number of values of `size_t`, taken 64 bits wide: `SIZE_MAX + 1`. -/
def sizeModulus : Nat := 2 ^ 64

/-- The loop and steps two and three of `RedBlackTree::insertKey`, lines 72-99,
with `prev->size++` (line 78) in the arithmetic of `size_t`: a counter at
`SIZE_MAX` becomes 0.  Everything else is as in `insertKeyLoop`. -/
def insertKeyLoop64 (key : Int) : Tree → List Frame → Inserted
  | nil, path => Inserted.fresh (node key Color.BLACK nil nil 1) path
  | node k c l r s, path =>
    if key = k then Inserted.present (zip path (node k c l r s))
    else if key < k then
      insertKeyLoop64 key l (Frame.mk Side.L k c ((s + 1) % sizeModulus) r :: path)
    else insertKeyLoop64 key r (Frame.mk Side.R k c ((s + 1) % sizeModulus) l :: path)

/-- Function `RedBlackTree::rotateWithParent`, lines 265-326, with the sums of
lines 285 and 294 in the arithmetic of `size_t`.  Everything else is as in
`rotateWithParent`. -/
def rotateWithParent64 : Tree → List Frame → Except Fault (Tree × List Frame)
  | nil, _ => .error Fault.nullDereference
  | node _ _ _ _ _, [] => .error (Fault.runtimeError "Rotating node with no parent?")
  | node k c l r _, p :: rest =>
    match p.side with
    | Side.L =>
      let child := r
      let parentSize := ((if p.sibling.isNode then p.size else 0) + (if child.isNode then child.sizeOr0 else 0) + 1) % sizeModulus
      .ok (node k c l (node p.key p.color child p.sibling parentSize) p.size, rest)
    | Side.R =>
      let child := l
      let parentSize := ((if p.sibling.isNode then p.sibling.sizeOr0 else 0) + (if child.isNode then child.sizeOr0 else 0) + 1) % sizeModulus
      .ok (node k c (node p.key p.color p.sibling child parentSize) r p.size, rest)

/-- Function `RedBlackTree::fixupFrom`, lines 103-260, over `rotateWithParent64`.
Everything else is as in `fixupFrom`. -/
def fixupFrom64 : Tree → List Frame → Except Fault Tree
  | nil, _ => .error Fault.nullDereference
  | node k c l r s, [] => .ok (node k c l r s)
  | node k _ l r s, [p] =>
    if p.color == Color.BLACK && p.sibling.nullOrBlack then
      .ok (zip [p] (node k Color.RED l r s))
    else if p.color == Color.BLACK && p.sibling.nonNullRed then
      .ok (zip [p] (node k Color.RED l r s))
    else
      .error Fault.nullDereference
  | node k c l r s, p :: g :: rest =>
    if p.color == Color.BLACK && p.sibling.nullOrBlack then
      .ok (zip (p :: g :: rest) (node k Color.RED l r s))
    else if p.color == Color.BLACK && p.sibling.nonNullRed then
      .ok (zip (p :: g :: rest) (node k Color.RED l r s))
    else if p.color == Color.RED && g.sibling.nullOrBlack then
      if (p.side == Side.L) != (g.side == Side.L) then
        do
          let (n1, path1) ← rotateWithParent64 (node k c l r s) (p :: g :: rest)
          let (n2, path2) ← rotateWithParent64 n1 path1
          let n3 ← n2.setChildColor g.side.other Color.RED
          .ok (zip path2 n3)
      else
        do
          let (p1, path1) ← rotateWithParent64 (p.plug (node k c l r s)) (g :: rest)
          let p2 ← p1.setColor Color.BLACK
          let p3 ← p2.setChildColor p.side Color.RED
          let p4 ← p3.setChildColor p.side.other Color.RED
          .ok (zip path1 p4)
    else
      do
        let aunt ← g.sibling.setColor Color.BLACK
        let parent := Frame.mk p.side p.key Color.BLACK p.size p.sibling
        let grandparent := Frame.mk g.side g.key g.color g.size aunt
        fixupFrom64 (grandparent.plug (parent.plug (node k Color.RED l r s))) rest

/-- Function `RedBlackTree::insert`, lines 51-61, with the counters in the
arithmetic of `size_t`: `insertKey`, then `return false` if it returned
`nullptr`, else `fixupFrom` and `return true`. -/
def insert64 (t : RBT) (key : Int) : Except Fault (Bool × RBT) :=
  match insertKeyLoop64 key t.root [] with
  | Inserted.present root1 => .ok (false, RBT.mk t.size root1)
  | Inserted.fresh n path => (fixupFrom64 n path).map (fun root1 => (true, RBT.mk t.size root1))

/-- The tree with the size of every proper ancestor of the node holding `key`
incremented as a `size_t` is (one more, and 0 after `SIZE_MAX`), and every
other node as it was. -/
def bumpAncestors64 (key : Int) : Tree → Tree
  | nil => nil
  | node k c l r s =>
    if key = k then node k c l r s
    else if key < k then node k c (bumpAncestors64 key l) r ((s + 1) % sizeModulus)
    else node k c l (bumpAncestors64 key r) ((s + 1) % sizeModulus)

/-- Every size counter of the tree is below `b`. -/
def Tree.countersBelow (b : Nat) : Tree → Prop
  | nil => True
  | node _ _ l r s => s < b ∧ countersBelow b l ∧ countersBelow b r

/-! ## Basic facts about the representation -/

theorem keys_plug (f : Frame) (t : Tree) :
    (f.plug t).keys =
      (match f.side with
        | Side.L => t.keys ++ f.key :: f.sibling.keys
        | Side.R => f.sibling.keys ++ f.key :: t.keys) := by
  unfold Frame.plug
  cases f.side <;> simp [Tree.keys]

theorem keys_zip (path : List Frame) (t : Tree) :
    (zip path t).keys = pathBefore path ++ t.keys ++ pathAfter path := by
  induction path generalizing t with
  | nil => simp [zip, pathBefore, pathAfter]
  | cons f rest ih =>
    rw [zip, ih, keys_plug]
    cases hs : f.side <;> simp [pathBefore, pathAfter, hs, List.append_assoc]

theorem nullOrBlack_iff (t : Tree) : t.nullOrBlack = true ↔ t.rootColor = Color.BLACK := by
  cases t <;> simp [Tree.nullOrBlack, Tree.rootColor]

theorem nonNullRed_eq (t : Tree) : t.nonNullRed = !t.nullOrBlack := by
  cases t with
  | nil => rfl
  | node k c l r s => cases c <;> rfl

theorem color_cases (c : Color) : c = Color.BLACK ∨ c = Color.RED := by
  cases c <;> simp

theorem PathOK_black {c : Color} {path : List Frame} (h : PathOK c path) :
    PathOK Color.BLACK path := by
  cases path with
  | nil => rfl
  | cons f rest => exact ⟨h.1, fun hr => ⟨rfl, (h.2.1 hr).2⟩, h.2.2⟩

theorem rootColor_plug (f : Frame) (t : Tree) : (f.plug t).rootColor = f.color := by
  unfold Frame.plug
  cases f.side <;> rfl

theorem noRedRed_plug (f : Frame) (t : Tree) (ht : t.NoRedRed) (hs : f.sibling.NoRedRed)
    (hc : f.color = Color.RED → t.rootColor = Color.BLACK ∧ f.sibling.rootColor = Color.BLACK) :
    (f.plug t).NoRedRed := by
  unfold Frame.plug
  cases f.side
  · exact ⟨hc, ht, hs⟩
  · exact ⟨fun h => ⟨(hc h).2, (hc h).1⟩, hs, ht⟩

/-- Filling the hole of a good chain with a good subtree gives a good tree. -/
theorem zip_colors (path : List Frame) (t : Tree) (hp : PathOK t.rootColor path)
    (ht : t.NoRedRed) : (zip path t).rootColor = Color.BLACK ∧ (zip path t).NoRedRed := by
  induction path generalizing t with
  | nil => exact ⟨hp, ht⟩
  | cons f rest ih =>
    rw [zip]
    apply ih
    · rw [rootColor_plug]; exact hp.2.2
    · exact noRedRed_plug f t ht hp.1 hp.2.1

/-! ## The loop of `fixupFrom` returns, and keeps the keys and the colour invariants -/


theorem fixupFrom_root (n : Tree) (h : FixupReady n []) : FixupGood n [] := by
  cases n with
  | nil => exact h.elim
  | node k c l r s =>
    obtain ⟨hc, hl, hr, hnl, hnr, -⟩ := h
    exact ⟨_, rfl, hc, ⟨fun _ => ⟨hl, hr⟩, hnl, hnr⟩, rfl⟩

theorem fixupFrom_blackParent (k : Int) (c : Color) (l r : Tree) (s : Nat) (p : Frame) (rest : List Frame)
    (hpc : p.color = Color.BLACK)
    (h : FixupReady (node k c l r s) (p :: rest)) : FixupGood (node k c l r s) (p :: rest) := by
  obtain ⟨hc, hl, hr, hnl, hnr, hp⟩ := h
  have hres : fixupFrom (node k c l r s) (p :: rest) = .ok (zip (p :: rest) (node k Color.RED l r s)) := by
    cases rest with
    | nil =>
      cases hb : p.sibling.nullOrBlack <;> simp [fixupFrom, hpc, hb, nonNullRed_eq]
    | cons g rest =>
      cases hb : p.sibling.nullOrBlack <;> simp [fixupFrom, hpc, hb, nonNullRed_eq]
  refine ⟨_, hres, ?_⟩
  have hp1 : PathOK Color.RED (p :: rest) := by
    refine ⟨hp.1, fun h => ?_, hp.2.2⟩
    rw [hpc] at h; cases h
  have hz := zip_colors (p :: rest) (node k Color.RED l r s) hp1 ⟨fun _ => ⟨hl, hr⟩, hnl, hnr⟩
  exact ⟨hz.1, hz.2, by simp [keys_zip, Tree.keys]⟩

theorem rootColor_node (k : Int) (c : Color) (l r : Tree) (s : Nat) :
    (node k c l r s).rootColor = c := rfl

theorem zip_colors_black (path : List Frame) (k : Int) (l r : Tree) (s : Nat)
    (hp : PathOK Color.BLACK path) (ht : (node k Color.BLACK l r s).NoRedRed) :
    (zip path (node k Color.BLACK l r s)).rootColor = Color.BLACK ∧
      (zip path (node k Color.BLACK l r s)).NoRedRed :=
  zip_colors path _ hp ht

theorem fixupGood_via {X : Tree} {rest : List Frame} {K : List Int}
    (ih : ∀ n, FixupReady n rest → FixupGood n rest) (hX : FixupReady X rest)
    (hk : (zip rest X).keys = K) :
    ∃ t, fixupFrom X rest = .ok t ∧ t.rootColor = Color.BLACK ∧ t.NoRedRed ∧ t.keys = K := by
  obtain ⟨t, ht, hb, hn, hk1⟩ := ih X hX
  exact ⟨t, ht, hb, hn, hk1.trans hk⟩

theorem fixupFrom_redParent (k : Int) (c : Color) (l r : Tree) (s : Nat) (p g : Frame)
    (rest : List Frame) (hpc : p.color = Color.RED)
    (h : FixupReady (node k c l r s) (p :: g :: rest))
    (ih : ∀ n, FixupReady n rest → FixupGood n rest) :
    FixupGood (node k c l r s) (p :: g :: rest) := by
  obtain ⟨hc, hl, hr, hnl, hnr, hps, hpr, hgs, hgr, hrest⟩ := h
  obtain ⟨ps, pk, pc, psz, psib⟩ := p
  obtain ⟨gs, gk, gc, gsz, gsib⟩ := g
  simp only at hpc hps hpr hgs hgr hrest
  subst hpc hc
  have hpsib : psib.rootColor = Color.BLACK := (hpr rfl).2
  have hgc : gc = Color.BLACK := by
    rcases color_cases gc with h | h
    · exact h
    · exact absurd (hgr h).1 (by decide)
  subst hgc
  have hrest1 : PathOK Color.BLACK rest := PathOK_black hrest
  cases hb : gsib.nullOrBlack
  · -- the aunt is RED: recolour and go on from the grandparent
    cases gsib with
    | nil => simp [Tree.nullOrBlack] at hb
    | node ak ac al ar asz =>
      have hac : ac = Color.RED := by
        rcases color_cases ac with h | h
        · simp [Tree.nullOrBlack, h] at hb
        · exact h
      subst hac
      obtain ⟨-, hnal, hnar⟩ := hgs
      cases ps <;> cases gs
      all_goals
        simp [FixupGood, fixupFrom, Tree.nullOrBlack, Tree.setColor, bind, Except.bind, Frame.plug]
        refine fixupGood_via ih ?_ ?_
        · refine ⟨rfl, rfl, rfl, ?_, ?_, hrest1⟩ <;> simp [Tree.NoRedRed, rootColor_node, *]
        · simp [keys_zip, Tree.keys, pathBefore, pathAfter]
  · have hgsib : gsib.rootColor = Color.BLACK := (nullOrBlack_iff _).1 hb
    cases ps <;> cases gs
    all_goals
      simp [fixupFrom, hb, rotateWithParent, Frame.plug, Tree.setColor, Tree.setChildColor,
        Side.other, Except.map, FixupGood, bind, Except.bind]
      refine ⟨(zip_colors_black rest _ _ _ _ hrest1 ?nrr).1,
        (zip_colors_black rest _ _ _ _ hrest1 ?nrr).2, ?_⟩
      case nrr => simp [Tree.NoRedRed, rootColor_node, *]
      simp [keys_zip, Tree.keys, pathBefore, pathAfter]

theorem fixupFrom_good_aux (path : List Frame) :
    (∀ n, FixupReady n path → FixupGood n path) ∧
      (∀ f n, FixupReady n (f :: path) → FixupGood n (f :: path)) := by
  induction path with
  | nil =>
    refine ⟨fixupFrom_root, fun f n h => ?_⟩
    cases n with
    | nil => exact h.elim
    | node k c l r s =>
      rcases color_cases f.color with hc | hc
      · exact fixupFrom_blackParent k c l r s f [] hc h
      · have hroot : f.color = Color.BLACK := h.2.2.2.2.2.2.2
        rw [hc] at hroot
        cases hroot
  | cons g rest ih =>
    refine ⟨ih.2 g, fun f n h => ?_⟩
    cases n with
    | nil => exact h.elim
    | node k c l r s =>
      rcases color_cases f.color with hc | hc
      · exact fixupFrom_blackParent k c l r s f (g :: rest) hc h
      · exact fixupFrom_redParent k c l r s f g rest hc h ih.1

/-- From a node that is ready, `fixupFrom` returns a tree with a BLACK root, no
RED node with a RED child, and the same keys in the same order. -/
theorem fixupFrom_good (n : Tree) (path : List Frame) (h : FixupReady n path) :
    FixupGood n path :=
  (fixupFrom_good_aux path).1 n h

/-! ## The descent of `insertKey` -/

theorem sorted_insert_middle (b a : List Int) (key : Int)
    (h : (b ++ a).Sorted (fun x y => x < y)) (hb : ∀ x ∈ b, x < key) (ha : ∀ x ∈ a, key < x) :
    (b ++ key :: a).Sorted (fun x y => x < y) := by
  simp only [List.Sorted, List.pairwise_append, List.pairwise_cons, List.mem_cons] at h ⊢
  refine ⟨h.1, ⟨ha, h.2.1⟩, ?_⟩
  intro x hx y hy
  rcases hy with rfl | hy
  · exact hb x hx
  · exact h.2.2 x hx y hy

theorem ordered_node_bounds {path : List Frame} {k : Int} {c : Color} {l r : Tree} {s : Nat}
    (h : (zip path (node k c l r s)).Ordered) :
    (∀ x ∈ l.keys, x < k) ∧ (∀ x ∈ r.keys, k < x) := by
  simp only [Tree.Ordered, keys_zip, Tree.keys, List.Sorted, List.pairwise_append,
    List.pairwise_cons, List.mem_cons, List.mem_append] at h
  refine ⟨fun x hx => ?_, fun x hx => ?_⟩
  · exact h.1.2.1.2.2 x hx k (Or.inl rfl)
  · exact h.1.2.1.2.1.1 x hx

theorem insertKeyLoop_spec (key : Int) (curr : Tree) : ∀ (path : List Frame),
    (zip path curr).Ordered →
    (∀ x ∈ pathBefore path, x < key) → (∀ x ∈ pathAfter path, key < x) →
    PathOK curr.rootColor path → curr.NoRedRed →
    match insertKeyLoop key curr path with
    | Inserted.present t =>
      key ∈ curr.keys ∧ t.keys = (zip path curr).keys ∧ t.rootColor = Color.BLACK ∧ t.NoRedRed
    | Inserted.fresh n path1 =>
      key ∉ curr.keys ∧ FixupReady n path1 ∧ (zip path1 n).Ordered ∧
        ∀ x, x ∈ (zip path1 n).keys ↔ x = key ∨ x ∈ (zip path curr).keys := by
  induction curr with
  | nil =>
    intro path hs hb ha hp _
    simp only [insertKeyLoop]
    refine ⟨by simp [Tree.keys], ⟨rfl, rfl, rfl, trivial, trivial, PathOK_black hp⟩, ?_, ?_⟩
    · simp only [Tree.Ordered, keys_zip, Tree.keys, List.append_nil, List.nil_append,
        List.append_assoc, List.singleton_append] at hs ⊢
      exact sorted_insert_middle _ _ key hs hb ha
    · intro x
      simp [keys_zip, Tree.keys]
      tauto
  | node k c l r s ihl ihr =>
    intro path hs hb ha hp hn
    obtain ⟨hlk, hrk⟩ := ordered_node_bounds hs
    rw [insertKeyLoop]
    by_cases hk : key = k
    · rw [if_pos hk]
      have hz := zip_colors path _ hp hn
      exact ⟨by simp [Tree.keys, hk], rfl, hz.1, hz.2⟩
    · rw [if_neg hk]
      by_cases hlt : key < k
      · rw [if_pos hlt]
        have hkeys : (zip (Frame.mk Side.L k c (s + 1) r :: path) l).keys = (zip path (node k c l r s)).keys := by
          simp [keys_zip, Tree.keys, pathBefore, pathAfter]
        have := ihl (Frame.mk Side.L k c (s + 1) r :: path)
          (by simpa only [Tree.Ordered, hkeys] using hs)
          (by simpa [pathBefore] using hb)
          (by
            intro x hx
            simp only [pathAfter, List.cons_append, List.mem_cons, List.mem_append] at hx
            rcases hx with rfl | hx | hx
            · exact hlt
            · exact lt_trans hlt (hrk x hx)
            · exact ha x hx)
          ⟨hn.2.2, hn.1, hp⟩ hn.2.1
        revert this
        cases insertKeyLoop key l (Frame.mk Side.L k c (s + 1) r :: path) with
        | present t =>
          rintro ⟨h1, h2, h3, h4⟩
          exact ⟨by simp [Tree.keys, h1], h2.trans hkeys, h3, h4⟩
        | fresh n path1 =>
          rintro ⟨h1, h2, h3, h4⟩
          refine ⟨?_, h2, h3, fun x => by rw [h4, hkeys]⟩
          simp only [Tree.keys, List.mem_append, List.mem_cons, not_or]
          exact ⟨h1, hk, fun hx => lt_asymm hlt (hrk _ hx)⟩
      · rw [if_neg hlt]
        have hgt : k < key := lt_of_le_of_ne (not_lt.1 hlt) (Ne.symm hk)
        have hkeys : (zip (Frame.mk Side.R k c (s + 1) l :: path) r).keys = (zip path (node k c l r s)).keys := by
          simp [keys_zip, Tree.keys, pathBefore, pathAfter]
        have := ihr (Frame.mk Side.R k c (s + 1) l :: path)
          (by simpa only [Tree.Ordered, hkeys] using hs)
          (by
            intro x hx
            simp only [pathBefore, List.mem_append, List.mem_singleton] at hx
            rcases hx with hx | hx | rfl
            · exact hb x hx
            · exact lt_trans (hlk x hx) hgt
            · exact hgt)
          (by simpa [pathAfter] using ha)
          ⟨hn.2.1, fun h => ⟨(hn.1 h).2, (hn.1 h).1⟩, hp⟩ hn.2.2
        revert this
        cases insertKeyLoop key r (Frame.mk Side.R k c (s + 1) l :: path) with
        | present t =>
          rintro ⟨h1, h2, h3, h4⟩
          exact ⟨by simp [Tree.keys, h1], h2.trans hkeys, h3, h4⟩
        | fresh n path1 =>
          rintro ⟨h1, h2, h3, h4⟩
          refine ⟨?_, h2, h3, fun x => by rw [h4, hkeys]⟩
          simp only [Tree.keys, List.mem_append, List.mem_cons, not_or]
          exact ⟨fun hx => lt_asymm hgt (hlk _ hx), hk, h1⟩

theorem ordered_children {k : Int} {c : Color} {l r : Tree} {s : Nat}
    (h : (node k c l r s).Ordered) : l.Ordered ∧ r.Ordered := by
  simp only [Tree.Ordered, Tree.keys, List.Sorted, List.pairwise_append, List.pairwise_cons] at h ⊢
  exact ⟨h.1, h.2.1.2⟩

/-- On an ordered tree the descent of `contains` finds exactly the keys of the tree. -/
theorem containsLoop_iff (key : Int) (t : Tree) (h : t.Ordered) :
    containsLoop key t = true ↔ key ∈ t.keys := by
  induction t with
  | nil => simp [containsLoop, Tree.keys]
  | node k c l r s ihl ihr =>
    obtain ⟨hlk, hrk⟩ := @ordered_node_bounds [] k c l r s h
    obtain ⟨hol, hor⟩ := ordered_children h
    rw [containsLoop]
    by_cases hk : key = k
    · simp [hk, Tree.keys]
    · rw [if_neg hk]
      by_cases hlt : key < k
      · rw [if_pos hlt, ihl hol]
        simp only [Tree.keys, List.mem_append, List.mem_cons]
        constructor
        · exact fun h1 => Or.inl h1
        · rintro (h1 | h1 | h1)
          · exact h1
          · exact absurd h1 hk
          · exact absurd (hrk _ h1) (lt_asymm hlt)
      · rw [if_neg hlt, ihr hor]
        have hgt : k < key := lt_of_le_of_ne (not_lt.1 hlt) (Ne.symm hk)
        simp only [Tree.keys, List.mem_append, List.mem_cons]
        constructor
        · exact fun h1 => Or.inr (Or.inr h1)
        · rintro (h1 | h1 | h1)
          · exact absurd (hlk _ h1) (lt_asymm hgt)
          · exact absurd h1 hk
          · exact h1

/-- One call of `insert` on a well-formed tree: it returns, the flag says
whether the key is new, the tree stays well-formed and holds the old keys and
the new one. -/
theorem insert_spec (t : RBT) (key : Int) (h : WellFormed t.root) :
    ∃ t1, insert t key = .ok (decide (key ∉ t.root.keys), t1) ∧ WellFormed t1.root ∧
      ∀ x, x ∈ t1.root.keys ↔ x = key ∨ x ∈ t.root.keys := by
  have hspec := insertKeyLoop_spec key t.root [] h.ordered (by simp [pathBefore])
    (by simp [pathAfter]) h.rootBlack h.noRedRed
  unfold insert insertKey
  revert hspec
  cases insertKeyLoop key t.root [] with
  | present t1 =>
    rintro ⟨h1, h2, h3, h4⟩
    refine ⟨RBT.mk t.size t1, by simp [h1], ⟨h3, h4, ?_⟩, fun x => ?_⟩
    · have := h.ordered
      simp only [Tree.Ordered, zip] at h2 this ⊢
      rw [h2]; exact this
    · simp only [zip] at h2
      simp only [h2]
      constructor
      · exact fun hx => Or.inr hx
      · rintro (rfl | hx)
        · exact h1
        · exact hx
  | fresh n path1 =>
    rintro ⟨h1, h2, h3, h4⟩
    obtain ⟨t1, ht1, hb, hn, hk⟩ := fixupFrom_good n path1 h2
    refine ⟨RBT.mk t.size t1, by simp [ht1, h1, Except.map], ⟨hb, hn, ?_⟩, fun x => ?_⟩
    · simp only [Tree.Ordered] at h3 ⊢
      rw [hk]; exact h3
    · simp only [hk, h4, zip]

theorem wellFormed_empty : WellFormed RBT.empty.root :=
  ⟨rfl, trivial, List.sorted_nil⟩

/-- A sequence of `insert` calls on a well-formed tree: every call returns, the
tree stays well-formed and ends up with the old keys and the inserted ones. -/
theorem insertAll_spec (ks : List Int) : ∀ (t : RBT), WellFormed t.root →
    ∃ t1, insertAll t ks = .ok t1 ∧ WellFormed t1.root ∧
      ∀ x, x ∈ t1.root.keys ↔ x ∈ ks ∨ x ∈ t.root.keys := by
  induction ks with
  | nil => exact fun t h => ⟨t, rfl, h, by simp⟩
  | cons k ks ih =>
    intro t h
    obtain ⟨t1, h1, hw1, hk1⟩ := insert_spec t k h
    obtain ⟨t2, h2, hw2, hk2⟩ := ih t1 hw1
    refine ⟨t2, by simp [insertAll, h1, h2], hw2, fun x => ?_⟩
    rw [hk2, hk1]
    simp only [List.mem_cons]
    tauto

theorem build_spec (ks : List Int) :
    ∃ t, build ks = .ok t ∧ WellFormed t.root ∧ ∀ x, x ∈ t.root.keys ↔ x ∈ ks := by
  obtain ⟨t, h1, h2, h3⟩ := insertAll_spec ks RBT.empty wellFormed_empty
  exact ⟨t, h1, h2, fun x => by rw [h3]; simp [RBT.empty, Tree.keys]⟩

/-! ## The claims -/

/-- C1: after any sequence `ks` of `insert` calls on an empty tree, every call
returning, the next call `insert(k)` returns as well, and it returns true if
and only if `k` was not inserted by an earlier call, that is `k ∉ ks`. -/
theorem C1_insert_true_iff_new (ks : List Int) (k : Int) :
    ∃ t b t1, build ks = .ok t ∧ insert t k = .ok (b, t1) ∧ (b = true ↔ k ∉ ks) := by
  obtain ⟨t, h1, h2, h3⟩ := build_spec ks
  obtain ⟨t1, h4, -, -⟩ := insert_spec t k h2
  exact ⟨t, _, t1, h1, h4, by simp [h3]⟩

/-- C2: after any sequence `ks` of `insert` calls on an empty tree, every call
returning, `contains(k)` is true if and only if `k` occurs in `ks`. -/
theorem C2_contains_iff_inserted (ks : List Int) (k : Int) :
    ∃ t, build ks = .ok t ∧ (contains t k = true ↔ k ∈ ks) := by
  obtain ⟨t, h1, h2, h3⟩ := build_spec ks
  exact ⟨t, h1, by rw [contains, containsLoop_iff k t.root h2.ordered, h3]⟩

/-- The function `select` has no failing path: whatever the tree and the rank,
it returns a key (0 when the descent reaches an empty subtree). -/
theorem selectHelper_returns (t : Tree) : ∀ rank : Nat, ∃ v, selectHelper t rank = .ok v := by
  induction t with
  | nil => exact fun _ => ⟨0, rfl⟩
  | node k c l r s ihl ihr =>
    intro rank
    simp only [selectHelper]
    split
    · exact ihl rank
    · split
      · exact ⟨k, rfl⟩
      · exact ihr _

/-- C3 (the code differs): after the calls insert 2, 1, 3, 0, 0 the tree holds
the four keys 0, 1, 2, 3, two of them less than 2, but `rankOf(2)` is 3: the
second `insert(0)` raised the size counters of the nodes 2 and 1 before it
found the key. -/
theorem C3_rankOf_after_repeated_key :
    (build [2, 1, 3, 0, 0]).map (fun t => rankOf t 2) = .ok 3 ∧
      countLess [2, 1, 3, 0, 0] 2 = 2 :=
  ⟨rfl, rfl⟩

/-- C4 (the code differs): after inserting the pairwise distinct keys
17, 16, ..., 0 in that order, 14 keys are less than 14 but `rankOf(14)` is 21:
the right rotations of `rotateWithParent` left the size 10 in node 12, which
has three nodes below and including it. -/
theorem C4_rankOf_after_distinct_keys :
    (build [17, 16, 15, 14, 13, 12, 11, 10, 9, 8, 7, 6, 5, 4, 3, 2, 1, 0]).map
        (fun t => rankOf t 14) = .ok 21 ∧
      countLess [17, 16, 15, 14, 13, 12, 11, 10, 9, 8, 7, 6, 5, 4, 3, 2, 1, 0] 14 = 14 ∧
      [17, 16, 15, 14, 13, 12, 11, 10, 9, 8, 7, 6, 5, 4, 3, 2, 1, 0].Nodup :=
  ⟨rfl, rfl, by decide⟩

/-- C5 (the code differs): after the calls insert 2, 1, 3, 0, 0 the sorted
distinct keys are 0, 1, 2, 3, so index 2 holds key 2, but `select(2)` returns 0
(the descent goes left at the root, whose left child claims size 3, and ends
in an empty subtree). -/
theorem C5_select_after_repeated_key :
    (build [2, 1, 3, 0, 0]).bind (fun t => select t 2) = .ok 0 ∧
      (distinctSorted [2, 1, 3, 0, 0])[2]? = some 2 :=
  ⟨rfl, rfl⟩

/-- C6 (the code differs): in the tree built by inserting 17, 16, ..., 0, which
stores 18 keys, `select(14)` returns 0 and `rankOf(0)` is 0, so
`rankOf(select(14))` is not 14. -/
theorem C6_rank_of_select :
    ∃ t, build [17, 16, 15, 14, 13, 12, 11, 10, 9, 8, 7, 6, 5, 4, 3, 2, 1, 0] = .ok t ∧
      t.root.keys.length = 18 ∧ select t 14 = .ok 0 ∧ rankOf t 0 = 0 :=
  ⟨_, rfl, rfl, rfl, rfl⟩

/-- C7 (the code differs): `select(0)` on the empty tree returns 0, and
`select(4)` after inserting 103, 161, 166, 261 returns 0; neither call fails. -/
theorem C7_select_out_of_range :
    select RBT.empty 0 = .ok 0 ∧
      (build [103, 161, 166, 261]).bind (fun t => select t 4) = .ok 0 :=
  ⟨rfl, rfl⟩

/-- C8 (the code differs): in the tree built by inserting 2, 1 the root has size
2; the call `insert(1)` returns false and leaves the root with size 3. -/
theorem C8_insert_present_key_changes_size :
    build [2, 1] =
        .ok (RBT.mk 0 (node 2 Color.BLACK (node 1 Color.RED nil nil 1) nil 2)) ∧
      insert (RBT.mk 0 (node 2 Color.BLACK (node 1 Color.RED nil nil 1) nil 2)) 1 =
        .ok (false, RBT.mk 0 (node 2 Color.BLACK (node 1 Color.RED nil nil 1) nil 3)) :=
  ⟨rfl, rfl⟩

/-- C9 (the code differs): from the tree built by inserting 2, 1, 3, a first
`insert(0)` returns true and a second one returns false, but `rankOf(2)` is 2
before the second call and 3 after it, and `select(2)` is 2 before and 0
after. -/
theorem C9_second_insert_changes_rank :
    ∃ t0 t1 t2, build [2, 1, 3] = .ok t0 ∧ insert t0 0 = .ok (true, t1) ∧
      insert t1 0 = .ok (false, t2) ∧
      rankOf t1 2 = 2 ∧ rankOf t2 2 = 3 ∧ select t1 2 = .ok 2 ∧ select t2 2 = .ok 0 :=
  ⟨_, _, _, rfl, rfl, rfl, rfl, rfl, rfl, rfl⟩

/-- C10 (the code differs): after inserting 7, 6, 5, 4, 3, 2, 1, 0 the size
invariant fails: node 6 has the children 5 and 7, both of size 1, and size
10. -/
theorem C10_size_invariant_after_rotation :
    ∃ t l, build [7, 6, 5, 4, 3, 2, 1, 0] = .ok t ∧
      t.root = node 4 Color.BLACK l
        (node 6 Color.RED (node 5 Color.BLACK nil nil 1) (node 7 Color.BLACK nil nil 1) 10) 8 ∧
      t.root.sizeInvariant = false :=
  ⟨_, _, rfl, rfl, rfl⟩

/-! ## BST ordering at every node -/

theorem ordered_bst (t : Tree) (h : t.Ordered) : t.BST := by
  induction t with
  | nil => trivial
  | node k c l r s ihl ihr =>
    obtain ⟨hlk, hrk⟩ := @ordered_node_bounds [] k c l r s h
    obtain ⟨hol, hor⟩ := ordered_children h
    exact ⟨hlk, hrk, ihl hol, ihr hor⟩

/-- C12: after any sequence `ks` of `insert` calls on an empty tree, every call
returning, every node of the tree has all keys of its left subtree strictly
below its key and all keys of its right subtree strictly above it; the
in-order key sequence is strictly increasing and has no duplicates. -/
theorem C12_bst_ordering_after_inserts (ks : List Int) :
    ∃ t, build ks = .ok t ∧ t.root.BST ∧ t.root.keys.Sorted (fun a b => a < b) ∧
      t.root.keys.Nodup := by
  obtain ⟨t, h1, h2, -⟩ := build_spec ks
  exact ⟨t, h1, ordered_bst _ h2.ordered, h2.ordered, h2.ordered.nodup⟩

/-- C14: after inserting 103, 161, 166, 261 in that order into an empty tree,
`rankOf(137) = 1`, `rankOf(161) = 1`, `select(0) = 103`, `select(3) = 261`,
`contains(166)` is true and `contains(200)` is false. -/
theorem C14_worked_scenario :
    ∃ t, build [103, 161, 166, 261] = .ok t ∧ rankOf t 137 = 1 ∧ rankOf t 161 = 1 ∧
      select t 0 = .ok 103 ∧ select t 3 = .ok 261 ∧ contains t 166 = true ∧
      contains t 200 = false :=
  ⟨_, rfl, rfl, rfl, rfl, rfl, rfl, rfl⟩

/-! ## The member `size` of the class -/

theorem insert_size (t t1 : RBT) (key : Int) (b : Bool) (h : insert t key = .ok (b, t1)) :
    t1.size = t.size := by
  unfold insert at h
  split at h
  · cases h; rfl
  · rename_i n path _
    cases hf : fixupFrom n path with
    | error e => simp [hf, Except.map] at h
    | ok root1 =>
      simp only [hf, Except.map, Except.ok.injEq, Prod.mk.injEq] at h
      rw [← h.2]

theorem insertAll_size (ks : List Int) : ∀ (t t1 : RBT), insertAll t ks = .ok t1 →
    t1.size = t.size := by
  induction ks with
  | nil => intro t t1 h; cases h; rfl
  | cons k ks ih =>
    intro t t1 h
    rw [insertAll] at h
    cases hi : insert t k with
    | error e => simp [hi] at h
    | ok p =>
      obtain ⟨b, t2⟩ := p
      simp only [hi] at h
      rw [ih t2 t1 h, insert_size t t2 k b hi]

/-- Whatever was inserted, `getSize()` returns 0. -/
theorem getSize_build (ks : List Int) (t : RBT) (h : build ks = .ok t) : getSize t = 0 :=
  insertAll_size ks RBT.empty t h

/-- C15 (the code differs): after `insert(5)` on an empty tree one key is
stored and the root has size 1, but `getSize()` returns 0: it returns the
member `size` of the class, which no function writes. -/
theorem C15_getSize_after_one_insert :
    ∃ t, build [5] = .ok t ∧ t.root.keys = [5] ∧ t.root.sizeOr0 = 1 ∧ getSize t = 0 :=
  ⟨_, rfl, rfl, rfl, rfl⟩

/-! ## The rotation -/

/-- C17 (the code differs): node 1 is the left child of node 2, which has size 3
and the right child 3; the tree satisfies the size invariant.
`rotateWithParent` on node 1 gives node 1 the size 3 and leaves node 3 alone,
but sets the size of node 2, whose children are now an empty subtree and node
3, to 4 instead of 2. -/
theorem C17_right_rotation_size :
    (zip [Frame.mk Side.L 2 Color.BLACK 3 (node 3 Color.BLACK nil nil 1)]
        (node 1 Color.BLACK nil nil 1)).sizeInvariant = true ∧
      rotateWithParent (node 1 Color.BLACK nil nil 1)
          [Frame.mk Side.L 2 Color.BLACK 3 (node 3 Color.BLACK nil nil 1)] =
        .ok (node 1 Color.BLACK nil
          (node 2 Color.BLACK nil (node 3 Color.BLACK nil nil 1) 4) 3, []) :=
  ⟨rfl, rfl⟩

/-- C18: for every node with a parent, `rotateWithParent` returns; the node then
holds its old parent as the child on the side opposite to the one it hung on
(the old parent keeps its other child and takes over the node's inner subtree),
the node hangs where the old parent was (below the old grandparent on the same
side, or as the root when the chain `rest` is empty), and the in-order key
sequence of the whole tree is unchanged. -/
theorem C18_rotation_keeps_order (k : Int) (c : Color) (l r : Tree) (s : Nat) (p : Frame)
    (rest : List Frame) :
    ∃ n1 sz, rotateWithParent (node k c l r s) (p :: rest) = .ok (n1, rest) ∧
      n1 = (match p.side with
        | Side.L => node k c l (node p.key p.color r p.sibling sz) p.size
        | Side.R => node k c (node p.key p.color p.sibling l sz) r p.size) ∧
      (zip rest n1).keys = (zip (p :: rest) (node k c l r s)).keys := by
  obtain ⟨ps, pk, pc, psz, psib⟩ := p
  cases ps
  · exact ⟨_, _, rfl, rfl, by simp [keys_zip, Tree.keys, pathBefore, pathAfter]⟩
  · exact ⟨_, _, rfl, rfl, by simp [keys_zip, Tree.keys, pathBefore, pathAfter]⟩

/-! ## Rank and select on a tree whose size counters are right -/

theorem sizeInvariant_node {k : Int} {c : Color} {l r : Tree} {s : Nat}
    (h : (node k c l r s).sizeInvariant = true) :
    s = 1 + l.sizeOr0 + r.sizeOr0 ∧ l.sizeInvariant = true ∧ r.sizeInvariant = true := by
  simpa [Tree.sizeInvariant, and_assoc] using h

/-- Under the size invariant the counter of a node is the number of nodes below
and including it. -/
theorem sizeOr0_eq_length (t : Tree) (h : t.sizeInvariant = true) :
    t.sizeOr0 = t.keys.length := by
  induction t with
  | nil => rfl
  | node k c l r s ihl ihr =>
    obtain ⟨hs, hl, hr⟩ := sizeInvariant_node h
    simp only [Tree.sizeOr0, Tree.keys, List.length_append, List.length_cons]
    rw [hs, ihl hl, ihr hr]
    omega

theorem leftcount_eq (l : Tree) :
    (match l with
      | nil => 0
      | node _ _ _ _ ls => ls) = l.sizeOr0 := by
  cases l <;> rfl

theorem filter_lt_all (xs : List Int) (key : Int) (h : ∀ x ∈ xs, x < key) :
    xs.filter (fun x => decide (x < key)) = xs :=
  List.filter_eq_self.2 (fun x hx => by simpa using h x hx)

theorem filter_lt_none (xs : List Int) (key : Int) (h : ∀ x ∈ xs, ¬ x < key) :
    xs.filter (fun x => decide (x < key)) = [] :=
  List.filter_eq_nil_iff.2 (fun x hx => by simpa using h x hx)

/-- C19: on a tree that satisfies the BST ordering and the size invariant,
`rankOfHelper(root, key)` is the number of keys of the tree strictly less than
`key`, whatever `key` is. -/
theorem C19_rankOfHelper_correct (t : Tree) (key : Int) (ho : t.Ordered)
    (hs : t.sizeInvariant = true) :
    rankOfHelper t key = (t.keys.filter (fun x => decide (x < key))).length := by
  induction t with
  | nil => rfl
  | node k c l r s ihl ihr =>
    obtain ⟨hlk, hrk⟩ := @ordered_node_bounds [] k c l r s ho
    obtain ⟨hol, hor⟩ := ordered_children ho
    obtain ⟨-, hsl, hsr⟩ := sizeInvariant_node hs
    rw [rankOfHelper]
    simp only [Tree.keys, List.filter_append, List.length_append]
    by_cases hlt : key < k
    · rw [if_pos hlt, ihl hol hsl]
      have hr0 := filter_lt_none (k :: r.keys) key (by
        intro x hx
        rcases List.mem_cons.1 hx with rfl | hx
        · exact lt_asymm hlt
        · exact lt_asymm (lt_trans hlt (hrk x hx)))
      rw [hr0]; rfl
    · rw [if_neg hlt]
      by_cases hgt : key > k
      · rw [if_pos hgt, ihr hor hsr, sizeOr0_eq_length l hsl]
        rw [filter_lt_all l.keys key (fun x hx => lt_trans (hlk x hx) hgt)]
        simp only [List.filter_cons, hgt, decide_True, if_true, List.length_cons]
        omega
      · rw [if_neg hgt, sizeOr0_eq_length l hsl]
        have hk : key = k := le_antisymm (not_lt.1 hgt) (not_lt.1 hlt)
        subst hk
        rw [filter_lt_all l.keys key hlk]
        have hr0 := filter_lt_none (key :: r.keys) key (by
          intro x hx
          rcases List.mem_cons.1 hx with rfl | hx
          · exact lt_irrefl _
          · exact lt_asymm (hrk x hx))
        rw [hr0]; rfl

theorem C19_rankOfHelper_correct_witness :
    sampleTree.Ordered ∧ sampleTree.sizeInvariant = true ∧
      rankOfHelper sampleTree 4 =
        (sampleTree.keys.filter (fun x => decide (x < 4))).length :=
  ⟨by simp [Tree.Ordered, sampleTree, Tree.keys], rfl,
    C19_rankOfHelper_correct sampleTree 4 (by simp [Tree.Ordered, sampleTree, Tree.keys]) rfl⟩

/-- C20: on a tree that satisfies the size invariant, for every rank `r` below
the number of nodes, the descent of `selectHelper(root, r)` does not end in an
empty subtree and returns the element at index `r` of the in-order key
sequence. -/
theorem C20_selectHelper_correct (t : Tree) (hs : t.sizeInvariant = true) :
    ∀ r : Nat, r < t.keys.length →
      selectHelperAtNull t r = false ∧ ∃ v, selectHelper t r = .ok v ∧ t.keys[r]? = some v := by
  induction t with
  | nil => intro r hr; simp [Tree.keys] at hr
  | node k c l r s ihl ihr =>
    intro rank hr
    obtain ⟨-, hsl, hsr⟩ := sizeInvariant_node hs
    simp only [selectHelper, selectHelperAtNull, leftcount_eq, sizeOr0_eq_length l hsl]
    simp only [Tree.keys, List.length_append, List.length_cons] at hr
    by_cases hlt : rank < l.keys.length
    · rw [if_pos hlt, if_pos hlt]
      obtain ⟨h1, v, h2, h3⟩ := ihl hsl rank hlt
      exact ⟨h1, v, h2, by rw [Tree.keys, List.getElem?_append_left hlt]; exact h3⟩
    · rw [if_neg hlt, if_neg hlt]
      by_cases heq : rank = l.keys.length
      · rw [if_pos heq, if_pos heq]
        refine ⟨rfl, k, rfl, ?_⟩
        rw [Tree.keys, heq, List.getElem?_append_right (le_refl _)]
        simp
      · rw [if_neg heq, if_neg heq]
        have hr2 : rank - l.keys.length - 1 < r.keys.length := by omega
        obtain ⟨h1, v, h2, h3⟩ := ihr hsr _ hr2
        refine ⟨h1, v, h2, ?_⟩
        rw [Tree.keys, List.getElem?_append_right (by omega)]
        have : rank - l.keys.length = (rank - l.keys.length - 1) + 1 := by omega
        rw [this, List.getElem?_cons_succ]
        exact h3

theorem C20_selectHelper_correct_witness :
    sampleTree.sizeInvariant = true ∧ 2 < sampleTree.keys.length ∧
      selectHelperAtNull sampleTree 2 = false ∧
      ∃ v, selectHelper sampleTree 2 = .ok v ∧ sampleTree.keys[2]? = some v :=
  ⟨rfl, by decide, C20_selectHelper_correct sampleTree rfl 2 (by decide)⟩

/-! ## The destructor -/

theorem offSpine_le (t : Tree) : t.offSpine ≤ t.nodes.length := by
  induction t with
  | nil => simp [Tree.offSpine, Tree.nodes]
  | node k c l r s _ ihr =>
    simp only [Tree.offSpine, Tree.nodes, List.length_append, List.length_cons]
    omega

/-- With fuel for one iteration per node and one per node off the right spine,
the loop ends, with `root` empty, having deleted the nodes in order. -/
theorem destructorLoop_spec : ∀ (fuel : Nat) (t : Tree) (deleted : List NodeData),
    t.nodes.length + t.offSpine ≤ fuel →
      destructorLoop fuel t deleted = some (nil, deleted ++ t.nodes) := by
  intro fuel
  induction fuel with
  | zero =>
    intro t deleted h
    cases t with
    | nil => simp [destructorLoop, Tree.nodes]
    | node k c l r s => simp [Tree.nodes] at h
  | succ fuel ih =>
    intro t deleted h
    cases t with
    | nil => simp [destructorLoop, Tree.nodes]
    | node k c l r s =>
      cases l with
      | nil =>
        simp only [destructorLoop, destructorStep]
        rw [ih r _ (by simp [Tree.nodes, Tree.offSpine] at h; omega)]
        simp [Tree.nodes]
      | node lk lc ll lr ls =>
        simp only [destructorLoop, destructorStep]
        rw [ih _ _ (by
          simp only [Tree.nodes, Tree.offSpine, List.length_append, List.length_cons] at h ⊢
          omega)]
        simp [Tree.nodes]

/-- C16: for every tree, whatever its shape, colours and size counters, the loop
of the destructor ends within twice as many iterations as the tree has nodes,
with `root` empty, and the nodes it has deleted are the nodes of the tree, each
one once (in in-order sequence). -/
theorem C16_destructor_deletes_every_node (t : Tree) :
    destructorLoop (2 * t.nodes.length) t [] = some (nil, t.nodes) := by
  have h := destructorLoop_spec (2 * t.nodes.length) t [] (by
    have := offSpine_le t
    omega)
  simpa using h

/-! ## Black heights -/

theorem blackHeight_counts (t : Tree) : ∀ n, t.BlackHeight n → ∀ x ∈ t.blackCounts, x = n := by
  induction t with
  | nil =>
    intro n h x hx
    simp only [Tree.blackCounts, List.mem_singleton] at hx
    rw [hx, h]
  | node k c l r s ihl ihr =>
    rintro n ⟨m, hn, hl, hr⟩ x hx
    simp only [Tree.blackCounts, List.mem_map, List.mem_append] at hx
    obtain ⟨y, hy | hy, rfl⟩ := hx
    · rw [ihl m hl y hy, hn]
    · rw [ihr m hr y hy, hn]

theorem blackHeight_plug (f : Frame) (t : Tree) (h : Nat) (ht : t.BlackHeight h)
    (hs : f.sibling.BlackHeight h) : (f.plug t).BlackHeight (h + f.color.blackCount) := by
  unfold Frame.plug
  cases f.side
  · exact ⟨h, rfl, ht, hs⟩
  · exact ⟨h, rfl, hs, ht⟩

/-- Filling the hole of a balanced chain with a subtree of the right black
height gives a tree with a black height. -/
theorem zip_balanced (path : List Frame) : ∀ (t : Tree) (h : Nat), PathBalanced h path →
    t.BlackHeight h → ∃ H, (zip path t).BlackHeight H := by
  induction path with
  | nil => exact fun t h _ ht => ⟨h, ht⟩
  | cons f rest ih =>
    intro t h hp ht
    exact ih _ _ hp.2 (blackHeight_plug f t h ht hp.1)

theorem blackHeight_red_node {k : Int} {l r : Tree} {s : Nat} {h : Nat}
    (hl : l.BlackHeight h) (hr : r.BlackHeight h) :
    (node k Color.RED l r s).BlackHeight h :=
  ⟨h, rfl, hl, hr⟩

theorem blackHeight_black_node {k : Int} {l r : Tree} {s : Nat} {h : Nat}
    (hl : l.BlackHeight h) (hr : r.BlackHeight h) :
    (node k Color.BLACK l r s).BlackHeight (h + 1) :=
  ⟨h, rfl, hl, hr⟩

theorem fixupFrom_balanced_root (n : Tree) (h : Nat) (hr : FixupReady n []) (hl : FixupLevel n h [])
    (t : Tree) (ht : fixupFrom n [] = .ok t) : ∃ H, t.BlackHeight H := by
  cases n with
  | nil => exact hr.elim
  | node k c l r s =>
    obtain ⟨hc, -⟩ := hr
    subst hc
    simp only [fixupFrom, Except.ok.injEq] at ht
    subst ht
    exact ⟨h + 1, blackHeight_black_node hl.1 hl.2.1⟩

theorem fixupFrom_balanced_blackParent (k : Int) (c : Color) (l r : Tree) (s : Nat) (p : Frame)
    (rest : List Frame) (h : Nat) (hpc : p.color = Color.BLACK)
    (hl : FixupLevel (node k c l r s) h (p :: rest))
    (t : Tree) (ht : fixupFrom (node k c l r s) (p :: rest) = .ok t) : ∃ H, t.BlackHeight H := by
  have hres : fixupFrom (node k c l r s) (p :: rest) = .ok (zip (p :: rest) (node k Color.RED l r s)) := by
    cases rest with
    | nil =>
      cases hb : p.sibling.nullOrBlack <;> simp [fixupFrom, hpc, hb, nonNullRed_eq]
    | cons g rest =>
      cases hb : p.sibling.nullOrBlack <;> simp [fixupFrom, hpc, hb, nonNullRed_eq]
  rw [hres] at ht
  cases ht
  exact zip_balanced _ _ h hl.2.2 (blackHeight_red_node hl.1 hl.2.1)

theorem fixupFrom_balanced_redParent (k : Int) (c : Color) (l r : Tree) (s : Nat) (p g : Frame)
    (rest : List Frame) (h : Nat) (hpc : p.color = Color.RED)
    (hr : FixupReady (node k c l r s) (p :: g :: rest))
    (hl : FixupLevel (node k c l r s) h (p :: g :: rest))
    (ih : ∀ n h1, FixupReady n rest → FixupLevel n h1 rest →
      ∀ t, fixupFrom n rest = .ok t → ∃ H, t.BlackHeight H)
    (t : Tree) (ht : fixupFrom (node k c l r s) (p :: g :: rest) = .ok t) :
    ∃ H, t.BlackHeight H := by
  obtain ⟨hc, hcl, hcr, hnl, hnr, hps, hpr, hgs, hgr, hrest⟩ := hr
  obtain ⟨hbl, hbr, hbp, hbg, hbrest⟩ := hl
  obtain ⟨ps, pk, pc, psz, psib⟩ := p
  obtain ⟨gs, gk, gc, gsz, gsib⟩ := g
  simp only at hpc hps hpr hgs hgr hrest hbp hbg hbrest
  subst hpc hc
  have hpsib : psib.rootColor = Color.BLACK := (hpr rfl).2
  have hgc : gc = Color.BLACK := by
    rcases color_cases gc with h | h
    · exact h
    · exact absurd (hgr h).1 (by decide)
  subst hgc
  have hrest1 : PathOK Color.BLACK rest := PathOK_black hrest
  simp only [Color.blackCount, Nat.add_zero] at hbg hbrest
  cases hb : gsib.nullOrBlack
  · cases gsib with
    | nil => simp [Tree.nullOrBlack] at hb
    | node ak ac al ar asz =>
      have hac : ac = Color.RED := by
        rcases color_cases ac with h | h
        · simp [Tree.nullOrBlack, h] at hb
        · exact h
      subst hac
      obtain ⟨-, hnal, hnar⟩ := hgs
      obtain ⟨m, hm, hbal, hbar⟩ := hbg
      simp only [Color.blackCount, Nat.add_zero] at hm
      subst hm
      cases ps <;> cases gs
      all_goals
        simp [fixupFrom, Tree.nullOrBlack, Tree.setColor, bind, Except.bind, Frame.plug] at ht
        refine ih _ (h + 1) ?_ ?_ t ht
        · refine ⟨rfl, rfl, rfl, ?_, ?_, hrest1⟩ <;> simp [Tree.NoRedRed, rootColor_node, *]
        · refine ⟨?_, ?_, hbrest⟩ <;>
            first
            | exact blackHeight_black_node hbal hbar
            | exact blackHeight_black_node (blackHeight_red_node hbl hbr) hbp
            | exact blackHeight_black_node hbp (blackHeight_red_node hbl hbr)
  · cases ps <;> cases gs
    all_goals
      simp [fixupFrom, hb, rotateWithParent, Frame.plug, Tree.setColor, Tree.setChildColor,
        Side.other, Except.map, bind, Except.bind] at ht
      subst ht
      refine zip_balanced rest _ (h + 1) hbrest ?_
      first
      | exact blackHeight_black_node (blackHeight_red_node hbl hbr) (blackHeight_red_node hbp hbg)
      | exact blackHeight_black_node (blackHeight_red_node hbg hbp) (blackHeight_red_node hbl hbr)
      | exact blackHeight_black_node (blackHeight_red_node hbg hbl) (blackHeight_red_node hbr hbp)
      | exact blackHeight_black_node (blackHeight_red_node hbp hbl) (blackHeight_red_node hbr hbg)

theorem fixupFrom_balanced_aux (path : List Frame) :
    (∀ n h, FixupReady n path → FixupLevel n h path →
        ∀ t, fixupFrom n path = .ok t → ∃ H, t.BlackHeight H) ∧
      (∀ f n h, FixupReady n (f :: path) → FixupLevel n h (f :: path) →
        ∀ t, fixupFrom n (f :: path) = .ok t → ∃ H, t.BlackHeight H) := by
  induction path with
  | nil =>
    refine ⟨fixupFrom_balanced_root, fun f n h hr hl t ht => ?_⟩
    cases n with
    | nil => exact hr.elim
    | node k c l r s =>
      rcases color_cases f.color with hc | hc
      · exact fixupFrom_balanced_blackParent k c l r s f [] h hc hl t ht
      · have hroot : f.color = Color.BLACK := hr.2.2.2.2.2.2.2
        rw [hc] at hroot
        cases hroot
  | cons g rest ih =>
    refine ⟨ih.2 g, fun f n h hr hl t ht => ?_⟩
    cases n with
    | nil => exact hr.elim
    | node k c l r s =>
      rcases color_cases f.color with hc | hc
      · exact fixupFrom_balanced_blackParent k c l r s f (g :: rest) h hc hl t ht
      · exact fixupFrom_balanced_redParent k c l r s f g rest h hc hr hl ih.1 t ht

/-- From a node that is ready and sits at a balanced place, the tree that
`fixupFrom` returns has the same number of BLACK nodes on every path. -/
theorem fixupFrom_balanced (n : Tree) (path : List Frame) (h : Nat) (hr : FixupReady n path)
    (hl : FixupLevel n h path) (t : Tree) (ht : fixupFrom n path = .ok t) :
    ∃ H, t.BlackHeight H :=
  (fixupFrom_balanced_aux path).1 n h hr hl t ht

theorem insertKeyLoop_balanced (key : Int) (curr : Tree) : ∀ (path : List Frame) (h : Nat),
    curr.BlackHeight h → PathBalanced h path →
    match insertKeyLoop key curr path with
    | Inserted.present t => ∃ H, t.BlackHeight H
    | Inserted.fresh n path1 => FixupLevel n 0 path1 := by
  induction curr with
  | nil =>
    intro path h hc hp
    simp only [Tree.BlackHeight] at hc
    subst hc
    exact ⟨rfl, rfl, hp⟩
  | node k c l r s ihl ihr =>
    intro path h hc hp
    obtain ⟨m, hm, hl, hr⟩ := hc
    subst hm
    rw [insertKeyLoop]
    by_cases hk : key = k
    · rw [if_pos hk]
      exact zip_balanced path _ _ hp ⟨m, rfl, hl, hr⟩
    · rw [if_neg hk]
      by_cases hlt : key < k
      · rw [if_pos hlt]
        exact ihl _ m hl ⟨hr, hp⟩
      · rw [if_neg hlt]
        exact ihr _ m hr ⟨hl, hp⟩

/-- One call of `insert` keeps the black heights equal. -/
theorem insert_balanced (t t1 : RBT) (key : Int) (b : Bool) (hw : WellFormed t.root)
    (hb : ∃ H, t.root.BlackHeight H) (h : insert t key = .ok (b, t1)) :
    ∃ H, t1.root.BlackHeight H := by
  obtain ⟨H, hH⟩ := hb
  have hspec := insertKeyLoop_spec key t.root [] hw.ordered (by simp [pathBefore])
    (by simp [pathAfter]) hw.rootBlack hw.noRedRed
  have hbal := insertKeyLoop_balanced key t.root [] H hH trivial
  unfold insert insertKey at h
  revert hspec hbal h
  cases insertKeyLoop key t.root [] with
  | present root1 =>
    intro h _ hbal
    simp only [Except.ok.injEq, Prod.mk.injEq] at h
    rw [← h.2]
    exact hbal
  | fresh n path1 =>
    intro h hspec hbal
    cases hf : fixupFrom n path1 with
    | error e => simp [hf, Except.map] at h
    | ok root1 =>
      simp only [hf, Except.map, Except.ok.injEq, Prod.mk.injEq] at h
      rw [← h.2]
      exact fixupFrom_balanced n path1 0 hspec.2.1 hbal root1 hf

/-- A sequence of `insert` calls keeps the black heights equal. -/
theorem insertAll_balanced (ks : List Int) : ∀ (t t1 : RBT), WellFormed t.root →
    (∃ H, t.root.BlackHeight H) → insertAll t ks = .ok t1 → ∃ H, t1.root.BlackHeight H := by
  induction ks with
  | nil => intro t t1 _ hb h; cases h; exact hb
  | cons k ks ih =>
    intro t t1 hw hb h
    obtain ⟨t2, h2, hw2, -⟩ := insert_spec t k hw
    rw [insertAll, h2] at h
    exact ih t2 t1 hw2 (insert_balanced t t2 k _ hw hb h2) h

/-- Every tree built by `insert` calls from the empty tree: the calls return,
the colour invariants and the ordering hold, the keys are those inserted, and
all paths have the same number of BLACK nodes. -/
theorem build_redBlack (ks : List Int) :
    ∃ t, build ks = .ok t ∧ WellFormed t.root ∧ (∀ x, x ∈ t.root.keys ↔ x ∈ ks) ∧
      ∃ H, t.root.BlackHeight H := by
  obtain ⟨t, h1, h2, h3⟩ := build_spec ks
  exact ⟨t, h1, h2, h3, insertAll_balanced ks RBT.empty t wellFormed_empty ⟨0, rfl⟩ h1⟩

/-- C11: after any sequence `ks` of `insert` calls on an empty tree, every call
returning, the root (if there is one) is BLACK, no RED node has a RED child,
and every path from the root to an empty-subtree position has the same number
`n` of BLACK nodes. -/
theorem C11_red_black_invariants_after_inserts (ks : List Int) :
    ∃ t, build ks = .ok t ∧ t.root.rootColor = Color.BLACK ∧ t.root.NoRedRed ∧
      ∃ n, ∀ x ∈ t.root.blackCounts, x = n := by
  obtain ⟨t, h1, h2, -, H, h4⟩ := build_redBlack ks
  exact ⟨t, h1, h2.rootBlack, h2.noRedRed, H, blackHeight_counts _ H h4⟩

/-! ## Height -/

theorem height_le_blackHeight (t : Tree) : ∀ n, t.NoRedRed → t.BlackHeight n →
    t.height ≤ 2 * n + (1 - t.rootColor.blackCount) := by
  induction t with
  | nil => intro n _ _; simp [Tree.height]
  | node k c l r s ihl ihr =>
    rintro n ⟨hc, hnl, hnr⟩ ⟨m, hn, hl, hr⟩
    have h1 := ihl m hnl hl
    have h2 := ihr m hnr hr
    subst hn
    simp only [Tree.height, rootColor_node]
    cases c with
    | BLACK =>
      have hbl : l.rootColor.blackCount ≤ 1 := by cases l.rootColor <;> simp [Color.blackCount]
      simp only [Color.blackCount]
      omega
    | RED =>
      obtain ⟨hcl, hcr⟩ := hc rfl
      rw [hcl] at h1
      rw [hcr] at h2
      simp only [Color.blackCount] at h1 h2 ⊢
      omega

theorem pow_blackHeight_le (t : Tree) : ∀ n, t.BlackHeight n → 2 ^ n ≤ t.keys.length + 1 := by
  induction t with
  | nil => intro n h; simp only [Tree.BlackHeight] at h; subst h; simp [Tree.keys]
  | node k c l r s ihl ihr =>
    rintro n ⟨m, hn, hl, hr⟩
    have h1 := ihl m hl
    have h2 := ihr m hr
    have hle : n ≤ m + 1 := by
      subst hn
      cases c <;> simp [Color.blackCount]
    have h3 : 2 ^ n ≤ 2 ^ (m + 1) := Nat.pow_le_pow_right (by decide) hle
    simp only [Tree.keys, List.length_append, List.length_cons]
    rw [pow_succ] at h3
    omega

theorem keys_length_eq_dedup (ks : List Int) (t : Tree) (ho : t.Ordered)
    (hk : ∀ x, x ∈ t.keys ↔ x ∈ ks) : t.keys.length = (ks.dedup).length := by
  apply List.Perm.length_eq
  rw [List.perm_ext_iff_of_nodup ho.nodup (List.nodup_dedup ks)]
  intro x
  rw [hk, List.mem_dedup]

/-- C13: after any sequence `ks` of `insert` calls on an empty tree, every call
returning, the tree stores `N` keys, the number of distinct keys of `ks`, and
its height `h` satisfies `2 ^ h ≤ (N + 1) ^ 2`, which is `h ≤ 2 * log2 (N + 1)`;
in particular `2 ^ (h / 2) ≤ N + 1`. -/
theorem C13_height_bound (ks : List Int) :
    ∃ t, build ks = .ok t ∧ t.root.keys.length = (ks.dedup).length ∧
      2 ^ t.root.height ≤ (t.root.keys.length + 1) ^ 2 ∧
      2 ^ (t.root.height / 2) ≤ t.root.keys.length + 1 := by
  obtain ⟨t, h1, h2, h3, H, h4⟩ := build_redBlack ks
  have hh := height_le_blackHeight t.root H h2.noRedRed h4
  rw [h2.rootBlack] at hh
  simp only [Color.blackCount, Nat.sub_self, Nat.add_zero] at hh
  have hp := pow_blackHeight_le t.root H h4
  refine ⟨t, h1, keys_length_eq_dedup ks t.root h2.ordered h3, ?_, ?_⟩
  · calc 2 ^ t.root.height ≤ 2 ^ (2 * H) := Nat.pow_le_pow_right (by decide) hh
      _ = (2 ^ H) ^ 2 := by rw [Nat.mul_comm, pow_mul]
      _ ≤ (t.root.keys.length + 1) ^ 2 := Nat.pow_le_pow_left hp 2
  · calc 2 ^ (t.root.height / 2) ≤ 2 ^ H := Nat.pow_le_pow_right (by decide) (by omega)
      _ ≤ t.root.keys.length + 1 := hp

/-! ## What `insertKey` does to the tree -/

theorem ordered_node_iff (k : Int) (c : Color) (l r : Tree) (s : Nat) :
    (node k c l r s).Ordered ↔
      l.Ordered ∧ r.Ordered ∧ (∀ x ∈ l.keys, x < k) ∧ (∀ x ∈ r.keys, k < x) := by
  simp only [Tree.Ordered, Tree.keys, List.Sorted, List.pairwise_append, List.pairwise_cons,
    List.mem_cons]
  constructor
  · rintro ⟨h1, ⟨h2, h3⟩, h4⟩
    exact ⟨h1, h3, fun x hx => h4 x hx k (Or.inl rfl), h2⟩
  · rintro ⟨h1, h2, h3, h4⟩
    refine ⟨h1, ⟨h4, h2⟩, ?_⟩
    rintro x hx y (rfl | hy)
    · exact h3 x hx
    · exact lt_trans (h3 x hx) (h4 y hy)

theorem insertKeyLoop_fresh (key : Int) (curr : Tree) : ∀ (path : List Frame),
    key ∉ curr.keys →
      ∃ path1, insertKeyLoop key curr path = Inserted.fresh (node key Color.BLACK nil nil 1) path1 ∧
        zip path1 (node key Color.BLACK nil nil 1) = zip path (rawInsert key curr) := by
  induction curr with
  | nil => exact fun path _ => ⟨path, rfl, rfl⟩
  | node k c l r s ihl ihr =>
    intro path hk
    simp only [Tree.keys, List.mem_append, List.mem_cons, not_or] at hk
    obtain ⟨hl, hne, hr⟩ := hk
    rw [insertKeyLoop, if_neg hne, rawInsert]
    by_cases hlt : key < k
    · rw [if_pos hlt, if_pos hlt]
      exact ihl _ hl
    · rw [if_neg hlt, if_neg hlt]
      exact ihr _ hr

theorem keys_rawInsert (key : Int) (t : Tree) :
    ∀ x, x ∈ (rawInsert key t).keys ↔ x = key ∨ x ∈ t.keys := by
  induction t with
  | nil => intro x; simp [rawInsert, Tree.keys]
  | node k c l r s ihl ihr =>
    intro x
    rw [rawInsert]
    split
    · simp only [Tree.keys, List.mem_append, List.mem_cons, ihl]; tauto
    · simp only [Tree.keys, List.mem_append, List.mem_cons, ihr]; tauto

theorem ordered_rawInsert (key : Int) (t : Tree) (ho : t.Ordered) (hk : key ∉ t.keys) :
    (rawInsert key t).Ordered := by
  induction t with
  | nil => simp [rawInsert, Tree.Ordered, Tree.keys]
  | node k c l r s ihl ihr =>
    obtain ⟨hol, hor, hlk, hrk⟩ := (ordered_node_iff k c l r s).1 ho
    simp only [Tree.keys, List.mem_append, List.mem_cons, not_or] at hk
    obtain ⟨hl, hne, hr⟩ := hk
    rw [rawInsert]
    by_cases hlt : key < k
    · rw [if_pos hlt]
      refine (ordered_node_iff _ _ _ _ _).2 ⟨ihl hol hl, hor, fun x hx => ?_, hrk⟩
      rcases (keys_rawInsert key l x).1 hx with rfl | hx
      · exact hlt
      · exact hlk x hx
    · rw [if_neg hlt]
      refine (ordered_node_iff _ _ _ _ _).2 ⟨hol, ihr hor hr, hlk, fun x hx => ?_⟩
      rcases (keys_rawInsert key r x).1 hx with rfl | hx
      · exact lt_of_le_of_ne (not_lt.1 hlt) (Ne.symm hne)
      · exact hrk x hx

theorem sizeOr0_rawInsert (key : Int) (t : Tree) :
    (rawInsert key t).sizeOr0 = t.sizeOr0 + 1 := by
  cases t with
  | nil => rfl
  | node k c l r s =>
    rw [rawInsert]
    split <;> rfl

theorem sizeInvariant_rawInsert (key : Int) (t : Tree) (hs : t.sizeInvariant = true) :
    (rawInsert key t).sizeInvariant = true := by
  induction t with
  | nil => rfl
  | node k c l r s ihl ihr =>
    obtain ⟨h1, hl, hr⟩ := sizeInvariant_node hs
    rw [rawInsert]
    split
    · simp only [Tree.sizeInvariant, sizeOr0_rawInsert, ihl hl, hr, Bool.and_true,
        beq_iff_eq]
      omega
    · simp only [Tree.sizeInvariant, sizeOr0_rawInsert, ihr hr, hl, Bool.and_true,
        beq_iff_eq]
      omega

/-- C21: on a tree that satisfies the BST ordering and the size invariant, for a
key that is not present, `insertKey` returns a new node that is childless,
BLACK and of size 1; the tree it leaves is `rawInsert key t` (the new node at
the end of the descent, one more in the size of exactly the nodes passed),
which satisfies the BST ordering and the size invariant and holds the old keys
and `key`. -/
theorem C21_insertKey_new_key (t : Tree) (key : Int) (ho : t.Ordered)
    (hs : t.sizeInvariant = true) (hk : key ∉ t.keys) :
    ∃ path, insertKey t key = Inserted.fresh (node key Color.BLACK nil nil 1) path ∧
      zip path (node key Color.BLACK nil nil 1) = rawInsert key t ∧
      (rawInsert key t).Ordered ∧ (rawInsert key t).sizeInvariant = true ∧
      ∀ x, x ∈ (rawInsert key t).keys ↔ x = key ∨ x ∈ t.keys := by
  obtain ⟨path, h1, h2⟩ := insertKeyLoop_fresh key t [] hk
  exact ⟨path, h1, h2, ordered_rawInsert key t ho hk, sizeInvariant_rawInsert key t hs,
    keys_rawInsert key t⟩

theorem C21_insertKey_new_key_witness :
    sampleTree.Ordered ∧ sampleTree.sizeInvariant = true ∧ (4 : Int) ∉ sampleTree.keys ∧
      ∃ path, insertKey sampleTree 4 = Inserted.fresh (node 4 Color.BLACK nil nil 1) path ∧
        zip path (node 4 Color.BLACK nil nil 1) = rawInsert 4 sampleTree ∧
        (rawInsert 4 sampleTree).Ordered ∧ (rawInsert 4 sampleTree).sizeInvariant = true ∧
        ∀ x, x ∈ (rawInsert 4 sampleTree).keys ↔ x = 4 ∨ x ∈ sampleTree.keys :=
  ⟨by simp [Tree.Ordered, sampleTree, Tree.keys], rfl, by simp [sampleTree, Tree.keys],
    C21_insertKey_new_key sampleTree 4 (by simp [Tree.Ordered, sampleTree, Tree.keys]) rfl
      (by simp [sampleTree, Tree.keys])⟩

theorem insertKeyLoop_present (key : Int) (curr : Tree) : ∀ (path : List Frame),
    curr.Ordered → key ∈ curr.keys →
      insertKeyLoop key curr path = Inserted.present (zip path (bumpAncestors key curr)) := by
  induction curr with
  | nil => intro path _ hk; simp [Tree.keys] at hk
  | node k c l r s ihl ihr =>
    intro path ho hk
    obtain ⟨hol, hor, hlk, hrk⟩ := (ordered_node_iff k c l r s).1 ho
    simp only [Tree.keys, List.mem_append, List.mem_cons] at hk
    rw [insertKeyLoop, bumpAncestors]
    by_cases hne : key = k
    · rw [if_pos hne, if_pos hne]
    · rw [if_neg hne, if_neg hne]
      by_cases hlt : key < k
      · rw [if_pos hlt, if_pos hlt]
        have hl : key ∈ l.keys := by
          rcases hk with h | h | h
          · exact h
          · exact absurd h hne
          · exact absurd (hrk key h) (lt_asymm hlt)
        exact ihl _ hol hl
      · rw [if_neg hlt, if_neg hlt]
        have hr : key ∈ r.keys := by
          rcases hk with h | h | h
          · exact absurd (hlk key h) hlt
          · exact absurd h hne
          · exact h
        exact ihr _ hor hr

theorem skeleton_bumpAncestors (key : Int) (t : Tree) :
    (bumpAncestors key t).skeleton = t.skeleton := by
  induction t with
  | nil => rfl
  | node k c l r s ihl ihr =>
    rw [bumpAncestors]
    split
    · rfl
    · split
      · simp only [Tree.skeleton, ihl]
      · simp only [Tree.skeleton, ihr]

theorem containsLoop_skeleton (x : Int) (t : Tree) :
    containsLoop x t.skeleton = containsLoop x t := by
  induction t with
  | nil => rfl
  | node k c l r s ihl ihr => simp only [Tree.skeleton, containsLoop, ihl, ihr]

/-! ## No fault is reachable through `insert` -/

/-- At the start of an iteration of `fixupFrom` a RED parent has a parent, and
if the aunt is neither absent nor BLACK she is a RED node. -/
theorem fixupReady_grandparent (n : Tree) (p : Frame) (rest : List Frame)
    (h : FixupReady n (p :: rest)) (hp : p.color = Color.RED) :
    ∃ g rest1, rest = g :: rest1 ∧ g.color = Color.BLACK ∧
      (g.sibling.nullOrBlack = false → ∃ ak al ar asz, g.sibling = node ak Color.RED al ar asz) := by
  cases n with
  | nil => exact h.elim
  | node k c l r s =>
    obtain ⟨-, -, -, -, -, -, -, hrest⟩ := h
    rw [hp] at hrest
    cases rest with
    | nil => cases hrest
    | cons g rest1 =>
      refine ⟨g, rest1, rfl, ?_, fun hb => ?_⟩
      · rcases color_cases g.color with hg | hg
        · exact hg
        · exact absurd (hrest.2.1 hg).1 (by decide)
      · cases hs : g.sibling with
        | nil => rw [hs] at hb; cases hb
        | node ak ac al ar asz =>
          rw [hs] at hb
          cases ac with
          | BLACK => cases hb
          | RED => exact ⟨ak, al, ar, asz, rfl⟩

/-- C22: for every sequence `ks` of `insert` calls on an empty tree no call
faults, and neither does a further call `insert(k)`: no call ends in the
`runtime_error` of `rotateWithParent` nor in a member access through an absent
node (the grandparent of a RED parent, the aunt in the recolouring case), which
are the only ways `insert` has of not returning in the embedding. -/
theorem C22_insert_never_faults (ks : List Int) (k : Int) :
    ∃ t b t1, build ks = .ok t ∧ insert t k = .ok (b, t1) ∧
      (∀ e, build ks ≠ .error e) ∧ ∀ e, insert t k ≠ .error e := by
  obtain ⟨t, h1, h2, -⟩ := build_spec ks
  obtain ⟨t1, h4, -, -⟩ := insert_spec t k h2
  refine ⟨t, _, t1, h1, h4, fun e he => ?_, fun e he => ?_⟩
  · rw [h1] at he; cases he
  · rw [h4] at he; cases he

/-! ## The progress of the destructor -/

/-- C23 (the claim fails): on the tree 2 with the left child 1, the iteration of
the destructor deletes nothing and the right subtree of the root does not get
smaller: it goes from no node to one. -/
theorem C23_right_subtree_grows :
    (destructorStep (node 2 Color.BLACK (node 1 Color.RED nil nil 1) nil 2)).2 = none ∧
      ¬ (destructorStep (node 2 Color.BLACK (node 1 Color.RED nil nil 1) nil 2)).1.rightCount <
        (node 2 Color.BLACK (node 1 Color.RED nil nil 1) nil 2).rightCount := by
  decide

/-- C23 (amended): for every tree whose root has a left child, one iteration of
the loop of the destructor deletes nothing, keeps the nodes and their order,
and strictly decreases the number of nodes in the left subtree of the root;
the right subtree of the root strictly grows. -/
theorem C23_left_subtree_shrinks (k : Int) (c : Color) (lk : Int) (lc : Color)
    (ll lr : Tree) (ls : Nat) (r : Tree) (s : Nat) :
    (destructorStep (node k c (node lk lc ll lr ls) r s)).2 = none ∧
      (destructorStep (node k c (node lk lc ll lr ls) r s)).1.nodes =
        (node k c (node lk lc ll lr ls) r s).nodes ∧
      (destructorStep (node k c (node lk lc ll lr ls) r s)).1.leftCount <
        (node k c (node lk lc ll lr ls) r s).leftCount ∧
      (node k c (node lk lc ll lr ls) r s).rightCount <
        (destructorStep (node k c (node lk lc ll lr ls) r s)).1.rightCount := by
  refine ⟨rfl, ?_, ?_, ?_⟩
  · simp [destructorStep, Tree.nodes]
  · simp only [destructorStep, Tree.leftCount, Tree.nodes, List.length_append, List.length_cons]
    omega
  · simp only [destructorStep, Tree.rightCount, Tree.nodes, List.length_append,
      List.length_cons]
    omega

/-! ## The placeholder colour of a new node -/

theorem insertKeyLoopWith_black (key : Int) (curr : Tree) : ∀ (path : List Frame),
    insertKeyLoopWith Color.BLACK key curr path = insertKeyLoop key curr path := by
  induction curr with
  | nil => exact fun _ => rfl
  | node k c l r s ihl ihr =>
    intro path
    rw [insertKeyLoopWith, insertKeyLoop, ihl, ihr]

/-- With the placeholder BLACK the variant is the function of `close.cpp`. -/
theorem insertWith_black (t : RBT) (key : Int) : insertWith Color.BLACK t key = insert t key := by
  unfold insertWith insert insertKey
  rw [insertKeyLoopWith_black]

/-- C24 (the claim fails): with a RED placeholder the first `insert` into an
empty tree leaves a RED root, where `close.cpp` leaves a BLACK one: `fixupFrom`
ends at once for a node without a parent. -/
theorem C24_red_placeholder_red_root :
    insertAllWith Color.RED RBT.empty [5] = .ok (RBT.mk 0 (node 5 Color.RED nil nil 1)) ∧
      build [5] = .ok (RBT.mk 0 (node 5 Color.BLACK nil nil 1)) ∧
      RBT.mk 0 (node 5 Color.RED nil nil 1) ≠ RBT.mk 0 (node 5 Color.BLACK nil nil 1) :=
  ⟨rfl, rfl, by decide⟩

/-- In the zig-zag case the colour given to the new node stays: inserting 2
into the tree built from 3, 1 makes 2 the root, BLACK in `close.cpp` and RED
with a RED placeholder. -/
theorem insertWith_red_zigzag :
    build [3, 1] = .ok (RBT.mk 0 (node 3 Color.BLACK (node 1 Color.RED nil nil 1) nil 2)) ∧
      insert (RBT.mk 0 (node 3 Color.BLACK (node 1 Color.RED nil nil 1) nil 2)) 2 =
        .ok (true, RBT.mk 0 (node 2 Color.BLACK (node 1 Color.RED nil nil 1)
          (node 3 Color.RED nil nil 1) 3)) ∧
      insertWith Color.RED (RBT.mk 0 (node 3 Color.BLACK (node 1 Color.RED nil nil 1) nil 2)) 2 =
        .ok (true, RBT.mk 0 (node 2 Color.RED (node 1 Color.RED nil nil 1)
          (node 3 Color.RED nil nil 1) 3)) :=
  ⟨rfl, rfl, rfl⟩

/-- Outside the zig-zag case, `fixupFrom` gives the same result whatever the
colour of the node it starts from, provided the node has a parent. -/
theorem fixupFrom_color_irrelevant (k : Int) (c c1 : Color) (l r : Tree) (s : Nat) (p : Frame)
    (rest : List Frame) (hz : zigZagCase p rest = false) :
    fixupFrom (node k c l r s) (p :: rest) = fixupFrom (node k c1 l r s) (p :: rest) := by
  cases rest with
  | nil => simp only [fixupFrom]
  | cons g rest =>
    obtain ⟨ps, pk, pc, psz, psib⟩ := p
    obtain ⟨gs, gk, gc, gsz, gsib⟩ := g
    simp only [zigZagCase] at hz
    cases pc
    · cases hb : psib.nullOrBlack <;> simp [fixupFrom, hb, nonNullRed_eq]
    · cases hb : gsib.nullOrBlack
      · simp [fixupFrom, hb]
      · cases ps <;> cases gs <;> simp [hb] at hz <;>
          simp [fixupFrom, hb, rotateWithParent, Frame.plug, Tree.setColor, Tree.setChildColor,
            Side.other, Except.map, bind, Except.bind]

theorem insertKeyLoopWith_fresh (c0 : Color) (key : Int) (curr : Tree) :
    ∀ (path : List Frame) (n : Tree) (path1 : List Frame),
      insertKeyLoop key curr path = Inserted.fresh n path1 →
        insertKeyLoopWith c0 key curr path = Inserted.fresh (node key c0 nil nil 1) path1 ∧
          n = node key Color.BLACK nil nil 1 := by
  induction curr with
  | nil =>
    intro path n path1 h
    simp only [insertKeyLoop, Inserted.fresh.injEq] at h
    exact ⟨by rw [insertKeyLoopWith, h.2], h.1.symm⟩
  | node k c l r s ihl ihr =>
    intro path n path1 h
    rw [insertKeyLoop] at h
    rw [insertKeyLoopWith]
    by_cases hk : key = k
    · rw [if_pos hk] at h; cases h
    · rw [if_neg hk] at h ⊢
      by_cases hlt : key < k
      · rw [if_pos hlt] at h ⊢
        exact ihl _ n path1 h
      · rw [if_neg hlt] at h ⊢
        exact ihr _ n path1 h

/-- C24 (amended): when the new node gets a parent `p` and the fixup does not
start in the zig-zag case, `insert` gives the same flag and the same tree
whatever colour `insertKey` gives the new node. -/
theorem C24_placeholder_overwritten (c0 : Color) (t : RBT) (key : Int) (n : Tree) (p : Frame)
    (rest : List Frame) (h : insertKey t.root key = Inserted.fresh n (p :: rest))
    (hz : zigZagCase p rest = false) : insertWith c0 t key = insert t key := by
  obtain ⟨h1, h2⟩ := insertKeyLoopWith_fresh c0 key t.root [] n (p :: rest) h
  unfold insertWith insert
  rw [h1, h, h2]
  dsimp only
  rw [fixupFrom_color_irrelevant key c0 Color.BLACK nil nil 1 p rest hz]

theorem C24_placeholder_overwritten_witness :
    insertKey (RBT.mk 0 (node 2 Color.BLACK nil nil 1)).root 1 =
        Inserted.fresh (node 1 Color.BLACK nil nil 1) (Frame.mk Side.L 2 Color.BLACK 2 nil :: []) ∧
      zigZagCase (Frame.mk Side.L 2 Color.BLACK 2 nil) [] = false ∧
      insertWith Color.RED (RBT.mk 0 (node 2 Color.BLACK nil nil 1)) 1 =
        insert (RBT.mk 0 (node 2 Color.BLACK nil nil 1)) 1 :=
  ⟨rfl, rfl, C24_placeholder_overwritten Color.RED (RBT.mk 0 (node 2 Color.BLACK nil nil 1)) 1
    (node 1 Color.BLACK nil nil 1) (Frame.mk Side.L 2 Color.BLACK 2 nil) [] rfl rfl⟩

/-! ## A duplicate insert, with the counters of `size_t` -/

theorem insertKeyLoop64_present (key : Int) (curr : Tree) : ∀ (path : List Frame),
    curr.Ordered → key ∈ curr.keys →
      insertKeyLoop64 key curr path = Inserted.present (zip path (bumpAncestors64 key curr)) := by
  induction curr with
  | nil => intro path _ hk; simp [Tree.keys] at hk
  | node k c l r s ihl ihr =>
    intro path ho hk
    obtain ⟨hol, hor, hlk, hrk⟩ := (ordered_node_iff k c l r s).1 ho
    simp only [Tree.keys, List.mem_append, List.mem_cons] at hk
    rw [insertKeyLoop64, bumpAncestors64]
    by_cases hne : key = k
    · rw [if_pos hne, if_pos hne]
    · rw [if_neg hne, if_neg hne]
      by_cases hlt : key < k
      · rw [if_pos hlt, if_pos hlt]
        have hl : key ∈ l.keys := by
          rcases hk with h | h | h
          · exact h
          · exact absurd h hne
          · exact absurd (hrk key h) (lt_asymm hlt)
        exact ihl _ hol hl
      · rw [if_neg hlt, if_neg hlt]
        have hr : key ∈ r.keys := by
          rcases hk with h | h | h
          · exact absurd (hlk key h) hlt
          · exact absurd h hne
          · exact h
        exact ihr _ hor hr

/-- While no counter on the way down is at `SIZE_MAX`, the descent with the
counters of `size_t` is the descent with unbounded counters. -/
theorem insertKeyLoop64_eq (key : Int) (curr : Tree) : ∀ (path : List Frame),
    curr.countersBelow (sizeModulus - 1) →
      insertKeyLoop64 key curr path = insertKeyLoop key curr path := by
  induction curr with
  | nil => exact fun _ _ => rfl
  | node k c l r s ihl ihr =>
    intro path hb
    obtain ⟨hs, hl, hr⟩ := hb
    have hmod : (s + 1) % sizeModulus = s + 1 := Nat.mod_eq_of_lt (by omega)
    rw [insertKeyLoop64, insertKeyLoop, hmod, ihl _ hl, ihr _ hr]

theorem skeleton_bumpAncestors64 (key : Int) (t : Tree) :
    (bumpAncestors64 key t).skeleton = t.skeleton := by
  induction t with
  | nil => rfl
  | node k c l r s ihl ihr =>
    rw [bumpAncestors64]
    split
    · rfl
    · split
      · simp only [Tree.skeleton, ihl]
      · simp only [Tree.skeleton, ihr]

/-- While no counter is at `SIZE_MAX` the increment of `size_t` is one more. -/
theorem bumpAncestors64_eq (key : Int) (t : Tree) (hb : t.countersBelow (sizeModulus - 1)) :
    bumpAncestors64 key t = bumpAncestors key t := by
  induction t with
  | nil => rfl
  | node k c l r s ihl ihr =>
    obtain ⟨hs, hl, hr⟩ := hb
    have hmod : (s + 1) % sizeModulus = s + 1 := Nat.mod_eq_of_lt (by omega)
    rw [bumpAncestors64, bumpAncestors, hmod, ihl hl, ihr hr]

/-- C25 (the claim fails): in the ordered tree 2 with the left child 1, where
the counter of node 2 is `SIZE_MAX`, the call `insert(1)` returns false and
leaves node 2, the proper ancestor of the node holding 1, with the counter 0,
which is not the old counter plus 1. -/
theorem C25_counter_at_size_max_wraps :
    (node 2 Color.BLACK (node 1 Color.RED nil nil 1) nil 18446744073709551615).Ordered ∧
      (1 : Int) ∈ (node 2 Color.BLACK (node 1 Color.RED nil nil 1) nil 18446744073709551615).keys ∧
      insert64 (RBT.mk 0 (node 2 Color.BLACK (node 1 Color.RED nil nil 1) nil 18446744073709551615)) 1 =
        .ok (false, RBT.mk 0 (node 2 Color.BLACK (node 1 Color.RED nil nil 1) nil 0)) ∧
      (0 : Nat) ≠ 18446744073709551615 + 1 :=
  ⟨by simp [Tree.Ordered, Tree.keys], by simp [Tree.keys], rfl, by decide⟩

/-- C25 (amended): on a tree that satisfies the BST ordering, for a key `k`
stored in it, `insert(k)` returns false and leaves the tree `bumpAncestors64 k`:
the same shape, the same key and colour at every node (hence the same root and
the same answers of `contains`), and the size counter of exactly the proper
ancestors of the node holding `k` incremented as a `size_t` is; when every
counter of the tree is below `SIZE_MAX` that is one more in each of them
(`bumpAncestors k`). -/
theorem C25_insert_present_key_size_t (t : RBT) (k : Int) (ho : t.root.Ordered)
    (hk : k ∈ t.root.keys) :
    insert64 t k = .ok (false, RBT.mk t.size (bumpAncestors64 k t.root)) ∧
      (bumpAncestors64 k t.root).skeleton = t.root.skeleton ∧
      (∀ x, contains (RBT.mk t.size (bumpAncestors64 k t.root)) x = contains t x) ∧
      (t.root.countersBelow (sizeModulus - 1) →
        bumpAncestors64 k t.root = bumpAncestors k t.root) := by
  refine ⟨?_, skeleton_bumpAncestors64 k t.root, fun x => ?_, bumpAncestors64_eq k t.root⟩
  · unfold insert64
    rw [insertKeyLoop64_present k t.root [] ho hk]
    rfl
  · unfold contains
    rw [← containsLoop_skeleton, skeleton_bumpAncestors64, containsLoop_skeleton]

theorem C25_insert_present_key_size_t_witness :
    (RBT.mk 0 sampleTree).root.Ordered ∧ (1 : Int) ∈ (RBT.mk 0 sampleTree).root.keys ∧
      insert64 (RBT.mk 0 sampleTree) 1 =
        .ok (false, RBT.mk 0 (bumpAncestors64 1 sampleTree)) ∧
      (bumpAncestors64 1 sampleTree).skeleton = sampleTree.skeleton ∧
      (∀ x, contains (RBT.mk 0 (bumpAncestors64 1 sampleTree)) x =
        contains (RBT.mk 0 sampleTree) x) ∧
      (sampleTree.countersBelow (sizeModulus - 1) →
        bumpAncestors64 1 sampleTree = bumpAncestors 1 sampleTree) :=
  ⟨by simp [Tree.Ordered, sampleTree, Tree.keys], by simp [sampleTree, Tree.keys],
    C25_insert_present_key_size_t (RBT.mk 0 sampleTree) 1
      (by simp [Tree.Ordered, sampleTree, Tree.keys]) (by simp [sampleTree, Tree.keys])⟩

end RedBlackTree
